import Mathlib

/-!
Verification development for the mini-word rich-text editor core.

The Rust sources under src/ are shallowly embedded:

* Text is modelled as a list of bytes (`List Nat`); the rope of
  src/document/rope.rs is represented by its byte-sequence semantics, with
  `ropeInsert`, `ropeDelete` and `ropeSlice` reproducing the observable
  contract of `Rope::insert`, `Rope::delete` and `Rope::slice` (offsets are
  clamped to the current length exactly as the tree code does).
* `FxHashMap` fields are modelled as association lists; where the Rust code
  iterates over a hash map and the per-entry updates are independent, the
  list order is irrelevant, and where Rust iterates over the ordered
  sequence it is modelled by the `order` list itself.
* The `BTreeMap` from start offsets to paragraph ids is modelled as an
  association list with unique keys; `range(..=o).next_back()` becomes a
  maximum-key-below search.
* Machine integers (`usize`, `u64`, `u32`) become `Nat`; `isize` deltas
  become `Int` with `Int.toNat` modelling the `as usize` cast; `saturating_sub`
  becomes truncated `Nat` subtraction.
* `f32` quantities in the layout engine become `Int`; on the concrete inputs
  appearing in the claims all `f32` values are small integers on which the
  float arithmetic is exact, so the integer model computes the same values
  the float code does, and the control flow of the algorithms never depends
  on the numeric representation.
-/

namespace MiniWord

/-- Byte of UTF-8 text. -/
abbrev Byte := Nat

/-- Byte value of the newline character. -/
def NL : Byte := 10

/-! ## Rope (src/document/rope.rs), modelled by its byte-sequence semantics -/

/-- Model of Rope::insert: inserting an empty string is a no-op; otherwise the
text is spliced in at the offset, clamped to the end (descent places an
offset past the end after the last leaf). -/
def ropeInsert (s : List Byte) (offset : Nat) (t : List Byte) : List Byte :=
  if t = [] then s else s.take offset ++ t ++ s.drop offset

/-- Model of Rope::delete: a no-op when start is at or past the end or the
range is empty; otherwise removes the bytes in the range, the end clamped. -/
def ropeDelete (s : List Byte) (start stop : Nat) : List Byte :=
  if start ≥ stop ∨ start ≥ s.length then s
  else s.take start ++ s.drop stop

/-- Model of Rope::slice (RopeNode::collect_range): the bytes in the range,
both bounds clamped to the length. -/
def ropeSlice (s : List Byte) (start stop : Nat) : List Byte :=
  (s.take stop).drop start

/-! ## Association-list helpers for the hash-map and btree-map fields -/

/-- Lookup in an association list (FxHashMap::get). -/
def alookup {β : Type} (l : List (Nat × β)) (k : Nat) : Option β :=
  (l.find? (fun p => p.1 = k)).map (·.2)

/-- Update the value stored under a key, if present (FxHashMap::get_mut). -/
def aupdate {β : Type} (l : List (Nat × β)) (k : Nat) (f : β → β) :
    List (Nat × β) :=
  l.map (fun p => if p.1 = k then (p.1, f p.2) else p)

/-- Insert or replace a binding (FxHashMap::insert / BTreeMap::insert). -/
def ainsert {β : Type} (l : List (Nat × β)) (k : Nat) (v : β) :
    List (Nat × β) :=
  if l.any (fun p => p.1 = k) then
    l.map (fun p => if p.1 = k then (k, v) else p)
  else l ++ [(k, v)]

/-- Remove a binding (FxHashMap::remove / BTreeMap::remove). -/
def aremove {β : Type} (l : List (Nat × β)) (k : Nat) : List (Nat × β) :=
  l.filter (fun p => ¬ p.1 = k)

/-- Entry with the largest key at most `o` (BTreeMap::range(..=o).next_back()). -/
def btreeMaxLe : List (Nat × Nat) → Nat → Option (Nat × Nat)
  | [], _ => none
  | p :: rest, o =>
    match btreeMaxLe rest o with
    | none => if p.1 ≤ o then some p else none
    | some q => if p.1 ≤ o ∧ q.1 < p.1 then some p else some q

/-! ## Style spans and block metadata (src/document/block.rs) -/

/-- StyleSpan: a font applied to a byte range relative to the block start.
The Rust field named end is called `stop` here. -/
structure StyleSpan where
  start : Nat
  stop : Nat
  font_id : Nat
deriving DecidableEq, Repr

/-- BlockKind from src/document/block.rs. -/
inductive BlockKind where
  | Paragraph : BlockKind
  | Heading : Nat → BlockKind
  | ListItem : Nat → Nat → BlockKind
deriving DecidableEq, Repr

/-- BlockMeta: per-paragraph kind, absolute start offset, byte length and
style spans. -/
structure BlockMeta where
  kind : BlockKind
  start_offset : Nat
  byte_len : Nat
  styles : List StyleSpan
deriving DecidableEq, Repr

/-- BlockMeta::on_insert applied to a span list. -/
def onInsert (styles : List StyleSpan) (offset len : Nat) : List StyleSpan :=
  if styles = [] then styles
  else styles.map (fun s =>
    if offset > s.start ∧ offset ≤ s.stop then
      { s with stop := s.stop + len }
    else if offset ≤ s.start then
      { s with start := s.start + len, stop := s.stop + len }
    else s)

/-- BlockMeta::on_delete applied to a span list.  The branch for spans that
begin before the deleted range keeps the shrunk span without an emptiness
check, exactly as the source does. -/
def onDelete (styles : List StyleSpan) (start stop : Nat) : List StyleSpan :=
  if styles = [] then styles
  else
    let dl := stop - start
    styles.filterMap (fun s =>
      if s.stop ≤ start then some s
      else if s.start ≥ stop then
        some { s with start := s.start - dl, stop := s.stop - dl }
      else if s.start < start then
        some { s with stop := s.stop - dl }
      else
        let s' : StyleSpan := { s with start := start, stop := s.stop - dl }
        if s'.start ≥ s'.stop then none else some s')

/-- The local split_styles closure inside Document::apply_insert: spans ending
at or before the split stay, spans starting at or after it are rebased to 0,
and crossing spans are divided. -/
def splitStylesL (styles : List StyleSpan) (splitAt : Nat) :
    List StyleSpan × List StyleSpan :=
  styles.foldl (fun acc s =>
    if s.stop ≤ splitAt then (acc.1 ++ [s], acc.2)
    else if s.start ≥ splitAt then
      (acc.1, acc.2 ++ [{ s with start := s.start - splitAt, stop := s.stop - splitAt }])
    else
      (acc.1 ++ [{ s with stop := splitAt }],
       acc.2 ++ [{ s with start := 0, stop := s.stop - splitAt }]))
    ([], [])

/-- Stable insertion into a list sorted by a key (helper for the stable
sort_by_key in BlockMeta::format_range). -/
def sinsert {α : Type} (key : α → Nat) (x : α) : List α → List α
  | [] => [x]
  | y :: ys => if key x ≤ key y then x :: y :: ys else y :: sinsert key x ys

/-- Stable insertion sort by a key (Vec::sort_by_key is stable). -/
def insortBy {α : Type} (key : α → Nat) (l : List α) : List α :=
  l.foldr (sinsert key) []

/-- BlockMeta::format_range on the span list: punch a hole over the range,
insert the new span, sort by start, then merge adjacent spans with equal
font ids. -/
def formatStyles (styles : List StyleSpan) (start stop font : Nat) :
    List StyleSpan :=
  let kept := styles.foldl (fun acc s =>
    if s.stop ≤ start ∨ s.start ≥ stop then acc ++ [s]
    else
      (acc ++ (if s.start < start then
          [{ start := s.start, stop := start, font_id := s.font_id }] else []))
        ++ (if s.stop > stop then
          [{ start := stop, stop := s.stop, font_id := s.font_id }] else []))
    []
  let ns := kept ++ [⟨start, stop, font⟩]
  let sorted := insortBy (·.start) ns
  sorted.foldl (fun acc s =>
    match acc.getLast? with
    | some last =>
      if last.stop = s.start ∧ last.font_id = s.font_id then
        acc.dropLast ++ [{ last with stop := s.stop }]
      else acc ++ [s]
    | none => acc ++ [s]) []

/-- BlockMeta::format_range (the guard for an empty range returns the block
unchanged). -/
def BlockMeta.format_range (m : BlockMeta) (start stop font : Nat) : BlockMeta :=
  if start ≥ stop then m
  else { m with styles := formatStyles m.styles start stop font }

/-- BlockMeta::append_styles: append another block's spans with all bounds
shifted (no merging of adjacent spans, as in the source). -/
def appendStyles (styles other : List StyleSpan) (shift : Nat) : List StyleSpan :=
  styles ++ other.map (fun s =>
    { s with start := s.start + shift, stop := s.stop + shift })

/-! ## Paragraph index (src/document/paragraph.rs) -/

/-- ParagraphIndex: btree map from start offset to paragraph id, hash map
from paragraph id to bounds, and the ordered sequence of paragraph ids. -/
structure ParagraphIndex where
  offset_to_para : List (Nat × Nat)
  para_bounds : List (Nat × (Nat × Nat))
  order : List Nat
deriving DecidableEq, Repr

namespace ParagraphIndex

/-- ParagraphIndex::new. -/
def new : ParagraphIndex := ⟨[], [], []⟩

/-- ParagraphIndex::insert: record the bindings and place the id before the
first paragraph whose start exceeds the new start. -/
def insert (pi : ParagraphIndex) (para_id start len : Nat) : ParagraphIndex :=
  let pos :=
    match pi.order.findIdx? (fun id =>
      match alookup pi.para_bounds id with
      | some (s, _) => start < s
      | none => false) with
    | some p => p
    | none => pi.order.length
  { offset_to_para := ainsert pi.offset_to_para start para_id
    para_bounds := ainsert pi.para_bounds para_id (start, len)
    order := pi.order.take pos ++ para_id :: pi.order.drop pos }

/-- ParagraphIndex::insert_after: place the id right after a given one, or at
the end when the predecessor is absent. -/
def insert_after (pi : ParagraphIndex) (after para_id start len : Nat) :
    ParagraphIndex :=
  let order :=
    match pi.order.findIdx? (fun id => id = after) with
    | some p => pi.order.take (p + 1) ++ para_id :: pi.order.drop (p + 1)
    | none => pi.order ++ [para_id]
  { offset_to_para := ainsert pi.offset_to_para start para_id
    para_bounds := ainsert pi.para_bounds para_id (start, len)
    order := order }

/-- ParagraphIndex::remove. -/
def remove (pi : ParagraphIndex) (para_id : Nat) : ParagraphIndex :=
  let offset_to_para :=
    match alookup pi.para_bounds para_id with
    | some (s, _) => aremove pi.offset_to_para s
    | none => pi.offset_to_para
  { offset_to_para := offset_to_para
    para_bounds := aremove pi.para_bounds para_id
    order := pi.order.filter (fun id => ¬ id = para_id) }

/-- ParagraphIndex::update_length. -/
def update_length (pi : ParagraphIndex) (para_id new_len : Nat) :
    ParagraphIndex :=
  { pi with para_bounds :=
      aupdate pi.para_bounds para_id (fun b => (b.1, new_len)) }

/-- ParagraphIndex::update_lengths_after: shift the starts of all paragraphs
beginning strictly after the offset (the stored lengths are untouched),
re-keying the offset map entry of each one. -/
def update_lengths_after (pi : ParagraphIndex) (after : Nat) (delta : Int) :
    ParagraphIndex :=
  let to_update := (pi.para_bounds.filter (fun p => after < p.2.1)).map (·.1)
  to_update.foldl (fun acc id =>
    match alookup acc.para_bounds id with
    | some (start, _) =>
      let new_start := (start + delta).toNat
      { acc with
        offset_to_para := ainsert (aremove acc.offset_to_para start) new_start id
        para_bounds := aupdate acc.para_bounds id (fun b => (new_start, b.2)) }
    | none => acc) pi

/-- ParagraphIndex::para_at_offset: the paragraph with the largest start at
most the offset, falling back to the first paragraph, then to id 0. -/
def para_at_offset (pi : ParagraphIndex) (o : Nat) : Nat × Nat :=
  match btreeMaxLe pi.offset_to_para o with
  | some (start, para_id) => (para_id, start)
  | none =>
    match pi.order.head? with
    | some para_id =>
      match alookup pi.para_bounds para_id with
      | some (s, _) => (para_id, s)
      | none => (0, 0)
    | none => (0, 0)

end ParagraphIndex

/-! ## Edit operations (src/editing/operation.rs) -/

/-- DocPosition: paragraph id plus byte offset within the paragraph. -/
structure DocPosition where
  para_id : Nat
  offset : Nat
deriving DecidableEq, Repr

instance : Inhabited DocPosition := ⟨⟨0, 0⟩⟩

/-- EditOp: insert, delete, or a composite transaction. -/
inductive EditOp where
  | Insert : Nat → List Byte → EditOp
  | Delete : Nat → Nat → EditOp
  | Tx : List EditOp → EditOp
deriving Repr

/-- EditResult as returned by Document::apply_edit. -/
structure EditResult where
  version : Nat
  affected : List Nat
  created : List Nat
  deleted : List Nat
  new_cursor : DocPosition
deriving DecidableEq, Repr

/-! ## Document (src/document/mod.rs) -/

/-- Document: rope content, block metadata map, paragraph index, version
counter and the next paragraph id. -/
structure Document where
  content : List Byte
  blocks : List (Nat × BlockMeta)
  pindex : ParagraphIndex
  version : Nat
  next_para_id : Nat
deriving DecidableEq, Repr

namespace Document

/-- Document::new: one empty paragraph with id 0. -/
def new : Document :=
  { content := []
    blocks := [(0, ⟨.Paragraph, 0, 0, []⟩)]
    pindex := ParagraphIndex.new.insert 0 0 0
    version := 0
    next_para_id := 1 }

/-- Split a byte list at newline bytes, as str::split of a newline does:
the empty text yields one empty piece. -/
def splitNL : List Byte → List (List Byte)
  | [] => [[]]
  | b :: rest =>
    if b = NL then [] :: splitNL rest
    else
      match splitNL rest with
      | [] => [[b]]
      | p :: ps => (b :: p) :: ps

/-- Document::from_text: each newline-separated piece gets the next paragraph
id and consecutive offsets, and the paragraph index records the same bounds
(insertion happens by ascending start offsets, as in the Rust loop). -/
def from_text (text : List Byte) : Document :=
  let pieces := splitNL text
  let pairs := pieces.enum
  let blocks : List (Nat × BlockMeta) × Nat := pairs.foldl
    (fun (acc : List (Nat × BlockMeta) × Nat) (p : Nat × List Byte) =>
      (ainsert acc.1 p.1 ⟨.Paragraph, acc.2, p.2.length, []⟩,
       acc.2 + p.2.length + 1)) ([], 0)
  let pidx : ParagraphIndex × Nat := pairs.foldl
    (fun (acc : ParagraphIndex × Nat) (p : Nat × List Byte) =>
      (acc.1.insert p.1 acc.2 p.2.length, acc.2 + p.2.length + 1))
    (ParagraphIndex.new, 0)
  { content := text
    blocks := blocks.1
    pindex := pidx.1
    version := 0
    next_para_id := pieces.length }

/-- Document::text. -/
def text (d : Document) : List Byte := d.content

/-- Document::paragraph_text: slice the rope at the block's recorded bounds,
empty when the id is unknown. -/
def paragraph_text (d : Document) (para_id : Nat) : List Byte :=
  match alookup d.blocks para_id with
  | some m => ropeSlice d.content m.start_offset (m.start_offset + m.byte_len)
  | none => []

/-- Document::offset_to_position. -/
def offset_to_position (d : Document) (o : Nat) : DocPosition :=
  let (para_id, start) := d.pindex.para_at_offset o
  ⟨para_id, o - start⟩

/-- Document::shift_block_offsets_after: shift the start of every block
beginning strictly after the offset. -/
def shift_block_offsets_after (blocks : List (Nat × BlockMeta))
    (after : Nat) (delta : Int) : List (Nat × BlockMeta) :=
  blocks.map (fun p =>
    if after < p.2.start_offset then
      (p.1, { p.2 with start_offset := (p.2.start_offset + delta).toNat })
    else p)

/-- Byte positions of newline characters in the inserted text
(str::char_indices filtered to newlines yields byte indices). -/
def nlPositions (t : List Byte) : List Nat :=
  (t.enum.filter (fun p => p.2 = NL)).map (·.1)

/-- State threaded through the paragraph-splitting loop of
Document::apply_insert. -/
structure SplitState where
  blocks : List (Nat × BlockMeta)
  pindex : ParagraphIndex
  next_para_id : Nat
  created : List Nat
  rest_styles : List StyleSpan
  current_start : Nat
deriving Repr

/-- The per-newline loop of Document::apply_insert: each newline position
spawns a fresh paragraph holding the following segment, whose length is
either up to the next newline or, for the last one, the remainder of the
logical paragraph. -/
def segLoop (para_id orig_len text_len offset_in_para : Nat) :
    List Nat → SplitState → SplitState
  | [], st => st
  | nl :: rest, st =>
    let seg_len :=
      match rest.head? with
      | some np => np - nl - 1
      | none => orig_len + text_len - (offset_in_para + nl + 1)
    let (seg_styles, rest') := splitStylesL st.rest_styles seg_len
    let new_para := st.next_para_id
    segLoop para_id orig_len text_len offset_in_para rest
      { blocks := ainsert st.blocks new_para
          ⟨.Paragraph, st.current_start, seg_len, seg_styles⟩
        pindex := st.pindex.insert_after para_id new_para st.current_start seg_len
        next_para_id := st.next_para_id + 1
        created := st.created ++ [new_para]
        rest_styles := rest'
        current_start := st.current_start + seg_len + 1 }

/-- Intermediate result of the two insert branches: the updated block map,
paragraph index, next id and created list. -/
structure InsParts where
  blocks : List (Nat × BlockMeta)
  pindex : ParagraphIndex
  next_para_id : Nat
  created : List Nat

/-- The branch on newline presence inside Document::apply_insert: without a
newline the host paragraph is extended, otherwise it is split at each
newline, every following segment receiving a fresh paragraph id. -/
def insertParts (d : Document) (position : Nat) (text : List Byte)
    (para_id para_start : Nat) : InsParts :=
  let nls := nlPositions text
  if nls = [] then
    { blocks := aupdate d.blocks para_id (fun m =>
        { m with
          styles := onInsert m.styles (position - m.start_offset) text.length
          byte_len := m.byte_len + text.length })
      pindex := d.pindex.update_lengths_after position (text.length : Int)
      next_para_id := d.next_para_id
      created := [] }
  else
    let blocksA := aupdate d.blocks para_id (fun m =>
      { m with styles := onInsert m.styles (position - m.start_offset) text.length })
    match alookup blocksA para_id, nls with
    | some meta, nl0 :: _ =>
      let offset_in_para := position - para_start
      let original_byte_len := meta.byte_len
      let first_seg_len := offset_in_para + nl0
      let split := splitStylesL meta.styles first_seg_len
      let blocksB := aupdate blocksA para_id (fun m =>
        { m with byte_len := first_seg_len, styles := split.1 })
      let pindexB := d.pindex.update_length para_id first_seg_len
      let st := segLoop para_id original_byte_len text.length offset_in_para nls
        { blocks := blocksB
          pindex := pindexB
          next_para_id := d.next_para_id
          created := []
          rest_styles := split.2
          current_start := meta.start_offset + first_seg_len + 1 }
      { blocks := st.blocks, pindex := st.pindex,
        next_para_id := st.next_para_id, created := st.created }
    | _, _ =>
      { blocks := blocksA, pindex := d.pindex,
        next_para_id := d.next_para_id, created := [] }

/-- Document::apply_insert.  Mirrors the source: locate the host paragraph,
splice the rope, run the newline branch, then shift all blocks after the
insertion point (also re-shifting the freshly created ones). -/
def apply_insert (d : Document) (position : Nat) (text : List Byte) :
    Document × EditResult :=
  let pr := d.pindex.para_at_offset position
  let content := ropeInsert d.content position text
  let parts := insertParts d position text pr.1 pr.2
  let d' : Document :=
    { content := content
      blocks := shift_block_offsets_after parts.blocks position (text.length : Int)
      pindex := parts.pindex
      version := d.version
      next_para_id := parts.next_para_id }
  (d',
   { version := d.version
     affected := [pr.1]
     created := parts.created
     deleted := []
     new_cursor := d'.offset_to_position (position + text.length) })

/-- State threaded through the paragraph loop of Document::apply_delete. -/
structure DeleteState where
  blocks : List (Nat × BlockMeta)
  pindex : ParagraphIndex
  deleted : List Nat
  in_range : Bool
deriving Repr

/-- The loop body over the ordered paragraph list in Document::apply_delete:
the start paragraph enters range mode, paragraphs strictly between are
removed, and the end paragraph is merged into the start paragraph and then
removed. -/
def deleteLoop (start_para end_para start stop start_para_offset : Nat) :
    List Nat → DeleteState → DeleteState
  | [], st => st
  | para_id :: rest, st =>
    let st' :=
      if para_id = start_para then { st with in_range := true }
      else if st.in_range then
        if para_id = end_para then
          let blocks' :=
            match alookup st.blocks end_para with
            | some end_meta =>
              let offset_in_end := stop - end_meta.start_offset
              let remaining_in_end := end_meta.byte_len - offset_in_end
              aupdate st.blocks start_para (fun start_meta =>
                let offset_in_start := start - start_para_offset
                let sm := { start_meta with
                  styles := onDelete start_meta.styles offset_in_start start_meta.byte_len }
                let end_mod_styles := onDelete end_meta.styles 0 offset_in_end
                let new_start_len := offset_in_start
                { sm with
                  byte_len := new_start_len + remaining_in_end
                  styles := appendStyles sm.styles end_mod_styles new_start_len })
            | none => st.blocks
          { blocks := aremove blocks' end_para
            pindex := st.pindex.remove end_para
            deleted := st.deleted ++ [end_para]
            in_range := false }
        else
          { st with
            blocks := aremove st.blocks para_id
            pindex := st.pindex.remove para_id
            deleted := st.deleted ++ [para_id] }
      else st
    deleteLoop start_para end_para start stop start_para_offset rest st'

/-- Intermediate result of the two delete branches. -/
structure DelParts where
  blocks : List (Nat × BlockMeta)
  pindex : ParagraphIndex
  deleted : List Nat

/-- The single- versus cross-paragraph branch of Document::apply_delete. -/
def deleteParts (d : Document) (start stop : Nat)
    (start_para start_para_offset end_para : Nat) : DelParts :=
  let delete_len := stop - start
  if start_para = end_para then
    { blocks := aupdate d.blocks start_para (fun m =>
        let offset_in_para := start - m.start_offset
        { m with
          styles := onDelete m.styles offset_in_para (offset_in_para + delete_len)
          byte_len := m.byte_len - delete_len })
      pindex := d.pindex.update_lengths_after start (-(delete_len : Int))
      deleted := [] }
  else
    let st := deleteLoop start_para end_para start stop start_para_offset
      d.pindex.order
      { blocks := d.blocks, pindex := d.pindex, deleted := [], in_range := false }
    { blocks := st.blocks, pindex := st.pindex, deleted := st.deleted }

/-- Document::apply_delete. -/
def apply_delete (d : Document) (start stop : Nat) : Document × EditResult :=
  if start ≥ stop then
    (d,
     { version := d.version
       affected := []
       created := []
       deleted := []
       new_cursor := d.offset_to_position start })
  else
    let pr := d.pindex.para_at_offset start
    let pe := d.pindex.para_at_offset (stop - 1)
    let content := ropeDelete d.content start stop
    let parts := deleteParts d start stop pr.1 pr.2 pe.1
    let d' : Document :=
      { content := content
        blocks := shift_block_offsets_after parts.blocks start (-((stop - start : Nat) : Int))
        pindex := parts.pindex
        version := d.version
        next_para_id := d.next_para_id }
    (d',
     { version := d.version
       affected := [pr.1]
       created := []
       deleted := parts.deleted
       new_cursor := d'.offset_to_position start })

/-- Count of EditOp nodes in an operation tree: this is exactly how many
times Document::apply_edit increments the version when handed the op. -/
def opCount : EditOp → Nat
  | .Insert _ _ => 1
  | .Delete _ _ => 1
  | .Tx ops => 1 + (ops.attach.map (fun o => opCount o.1)).sum
decreasing_by
  have := List.sizeOf_lt_of_mem o.2
  simp only [EditOp.Tx.sizeOf_spec]
  omega

/-- Merge a child EditResult into the accumulated transaction result, keeping
the transaction's own version and the last cursor. -/
def mergeResult (r r' : EditResult) : EditResult :=
  { version := r.version
    affected := r.affected ++ r'.affected
    created := r.created ++ r'.created
    deleted := r.deleted ++ r'.deleted
    new_cursor := r'.new_cursor }

mutual

/-- Document::apply_edit: bump the version, then dispatch; a transaction
recursively applies each child op (each child bumping the version again),
unioning the result sets. -/
def apply_edit (d : Document) : EditOp → Document × EditResult
  | .Insert p t => ({ d with version := d.version + 1 }.apply_insert p t)
  | .Delete a b => ({ d with version := d.version + 1 }.apply_delete a b)
  | .Tx ops =>
    let d1 : Document := { d with version := d.version + 1 }
    apply_tx (d1,
      { version := d1.version
        affected := []
        created := []
        deleted := []
        new_cursor := default }) ops

/-- The child loop of the Transaction branch of Document::apply_edit. -/
def apply_tx (acc : Document × EditResult) : List EditOp → Document × EditResult
  | [] => acc
  | o :: rest =>
    let (d', r') := apply_edit acc.1 o
    apply_tx (d', mergeResult acc.2 r') rest

end

/-- Document::format_range. -/
def format_range (d : Document) (start stop font : Nat) :
    Document × EditResult :=
  if start ≥ stop then
    (d,
     { version := d.version
       affected := []
       created := []
       deleted := []
       new_cursor := d.offset_to_position start })
  else
    let d1 : Document := { d with version := d.version + 1 }
    let p_start_id := (d1.pindex.para_at_offset start).1
    let p_end_id := (d1.pindex.para_at_offset (stop - 1)).1
    let paras := collectRange d1.pindex.order p_start_id p_end_id false
    let fr : List (Nat × BlockMeta) × List Nat := paras.foldl (fun acc para_id =>
      match alookup acc.1 para_id with
      | some meta =>
        let p_s := meta.start_offset
        let p_e := p_s + meta.byte_len
        let range_start := max start p_s
        let range_end := min stop p_e
        if range_start < range_end then
          (aupdate acc.1 para_id
            (fun m => m.format_range (range_start - p_s) (range_end - p_s) font),
           acc.2 ++ [para_id])
        else acc
      | none => acc) (d1.blocks, [])
    let d' : Document := { d1 with blocks := fr.1 }
    (d',
     { version := d'.version
       affected := fr.2
       created := []
       deleted := []
       new_cursor := d'.offset_to_position stop })
where
  /-- The in-range collection loop over the ordered paragraphs. -/
  collectRange : List Nat → Nat → Nat → Bool → List Nat
    | [], _, _, _ => []
    | id :: rest, ps, pe, inr =>
      let inr' := inr || id = ps
      if inr' then
        if id = pe then [id] else id :: collectRange rest ps pe true
      else collectRange rest ps pe false

mutual

/-- Document::compute_reverse: an insert reverses to a delete of the inserted
range, a delete to an insert of the text currently in the range, and a
transaction to the reversed list of reverses (all computed against the same
pre-state). -/
def compute_reverse (d : Document) : EditOp → EditOp
  | .Insert p t => .Delete p (p + t.length)
  | .Delete a b => .Insert a (ropeSlice d.content a b)
  | .Tx ops => .Tx (compute_reverse_list d ops).reverse

/-- Reverses of a transaction's children, in their original order (the
source reverses the iteration, modelled by the final List.reverse above). -/
def compute_reverse_list (d : Document) : List EditOp → List EditOp
  | [] => []
  | op :: rest => compute_reverse d op :: compute_reverse_list d rest

end

end Document

/-! ## Cursor and Selection (src/editing/cursor.rs) -/

/-- The Ord implementation for DocPosition: compare the raw paragraph ids and
break ties by the in-paragraph offset. -/
def posLe (a b : DocPosition) : Prop :=
  a.para_id < b.para_id ∨ (a.para_id = b.para_id ∧ a.offset ≤ b.offset)

instance : DecidablePred fun p : DocPosition × DocPosition => posLe p.1 p.2 :=
  fun _ => by unfold posLe; infer_instance

instance (a b : DocPosition) : Decidable (posLe a b) := by
  unfold posLe; infer_instance

/-- Selection: anchor and active point. -/
structure Selection where
  anchor : DocPosition
  active : DocPosition
deriving DecidableEq, Repr

/-- Selection::ordered: the anchor first when anchor is at most active in the
DocPosition order, otherwise the active point first. -/
def Selection.ordered (s : Selection) : DocPosition × DocPosition :=
  if posLe s.anchor s.active then (s.anchor, s.active) else (s.active, s.anchor)

/-- Index of a paragraph id in the document's ordered sequence (the document
order the spec's DocPosition ordering refers to). -/
def seqIndex (d : Document) (para_id : Nat) : Option Nat :=
  d.pindex.order.findIdx? (fun id => id = para_id)

/-! ## Undo engine (src/undo/mod.rs)

The cursor is modelled by its document position (affinity and preferred x
are carried through the undo engine verbatim and never inspected).  Stacks
are lists with the top at the head: Vec::push and Vec::pop act on the head,
and the max-depth enforcement, which repeatedly removes the oldest entry,
becomes truncation of the tail. -/

/-- Cursor, reduced to its document position. -/
structure Cursor where
  position : DocPosition
deriving DecidableEq, Repr

/-- UndoResult: the cursor restored by undo. -/
structure UndoResult where
  cursor : Cursor
deriving DecidableEq, Repr

/-- Transaction record of the undo engine: forward ops, reverse ops and the
cursor saved at begin_transaction. -/
structure Txn where
  fwd : List EditOp
  rev : List EditOp
  cursor_before : Cursor

/-- UndoManager: undo and redo stacks (top at head), the depth bound, and the
pending transaction being built. -/
structure UndoManager where
  undo_stack : List Txn
  redo_stack : List Txn
  max_depth : Nat
  pending : Option Txn

namespace UndoManager

/-- UndoManager::new. -/
def new (max_depth : Nat) : UndoManager := ⟨[], [], max_depth, none⟩

/-- UndoManager::begin_transaction. -/
def begin_transaction (um : UndoManager) (c : Cursor) : UndoManager :=
  { um with pending := some ⟨[], [], c⟩ }

/-- UndoManager::record_edit. -/
def record_edit (um : UndoManager) (forward reverse : EditOp) : UndoManager :=
  match um.pending with
  | some t =>
    { um with pending := some { t with fwd := t.fwd ++ [forward], rev := t.rev ++ [reverse] } }
  | none => um

/-- UndoManager::commit: drop an empty pending transaction, otherwise clear
the redo stack, push, and trim to max_depth (merging is disabled in the
source, so the merge path never runs). -/
def commit (um : UndoManager) : UndoManager :=
  match um.pending with
  | some t =>
    if t.fwd.isEmpty then { um with pending := none }
    else
      { um with
        pending := none
        redo_stack := []
        undo_stack := (t :: um.undo_stack).take um.max_depth }
  | none => um

/-- UndoManager::undo: pop the newest transaction, replay its reverse ops in
reverse order through Document::apply_edit, move it to the redo stack and
return the saved cursor. -/
def undo (um : UndoManager) (d : Document) :
    UndoManager × Document × Option UndoResult :=
  match um.undo_stack with
  | [] => (um, d, none)
  | t :: rest =>
    let d' := t.rev.reverse.foldl (fun dd op => (dd.apply_edit op).1) d
    ({ um with undo_stack := rest, redo_stack := t :: um.redo_stack },
     d', some ⟨t.cursor_before⟩)

/-- UndoManager::redo: pop the newest undone transaction, replay its forward
ops in order, track the last resulting cursor, and move the transaction back
to the undo stack. -/
def redo (um : UndoManager) (d : Document) :
    UndoManager × Document × Option UndoResult :=
  match um.redo_stack with
  | [] => (um, d, none)
  | t :: rest =>
    let (d', c') := t.fwd.foldl
      (fun (acc : Document × Cursor) op =>
        let (dd, r) := acc.1.apply_edit op
        (dd, ⟨r.new_cursor⟩)) (d, t.cursor_before)
    ({ um with redo_stack := rest, undo_stack := t :: um.undo_stack },
     d', some ⟨c'⟩)

end UndoManager

/-- One recorded edit, following the Editor flow in src/lib.rs: open a
transaction at the current cursor, compute the reverse against the current
document, apply the op, record the pair and commit, moving the cursor to the
edit's resulting position. -/
def editStep (st : UndoManager × Document × Cursor) (op : EditOp) :
    UndoManager × Document × Cursor :=
  let (um, d, c) := st
  let um1 := um.begin_transaction c
  let rev := d.compute_reverse op
  let (d', res) := d.apply_edit op
  let um2 := (um1.record_edit op rev).commit
  (um2, d', ⟨res.new_cursor⟩)

/-- Replay of a transaction's reverse ops as UndoManager::undo performs it. -/
def applyRevs (d : Document) (t : Txn) : Document :=
  t.rev.reverse.foldl (fun dd op => (dd.apply_edit op).1) d

/-- Undoing every transaction remaining on the stack (repeated
UndoManager::undo until the stack is empty). -/
def undoAllDoc (stack : List Txn) (d : Document) : Document :=
  stack.foldl applyRevs d

/-! ## Fonts and the line breaker (src/layout/font.rs, src/layout/line_break.rs)

Pixel quantities (f32 in the source) are modelled as integers: on the inputs
the claims range over, every float value is a small integer and all the
arithmetic performed on them is exact, while the control flow of the
algorithms is independent of the numeric representation.  Grapheme clusters
are single characters, which coincides with extended grapheme clusters on
the ASCII texts the claims are about, with each character occupying one
byte. -/

/-- FontMetrics: line height, per-character widths for the ASCII range, and
the fallback width. -/
structure FontMetrics where
  line_height : Int
  char_widths : List Int
  default_width : Int
deriving DecidableEq, Repr

/-- FontMetrics::width: table entry for an ASCII character, else the default
width. -/
def FontMetrics.width (m : FontMetrics) (c : Char) : Int :=
  if c.toNat ≤ 127 then
    match m.char_widths.get? c.toNat with
    | some w => w
    | none => m.default_width
  else m.default_width

/-- FontLibrary, as the id-to-metrics map. -/
def FontLibrary := List (Nat × FontMetrics)

/-- FontLibrary::get. -/
def libGet (lib : FontLibrary) (id : Nat) : Option FontMetrics :=
  (lib.find? (fun p => p.1 = id)).map (·.2)

/-- Rust char::is_whitespace restricted to the ASCII range. -/
def isWS (c : Char) : Bool :=
  c.toNat = 32 ∨ (9 ≤ c.toNat ∧ c.toNat ≤ 13)

/-- Rust char::is_control restricted to the ASCII range. -/
def isCtrl (c : Char) : Bool :=
  c.toNat < 32 ∨ c.toNat = 127

/-- BASELINE from src/layout/engine.rs. -/
def BASELINE : Int := 11

/-- INDENT_WIDTH from src/layout/engine.rs. -/
def INDENT_WIDTH : Int := 24

/-- ClusterInfo: byte offset, x position and width of one cluster. -/
structure ClusterInfo where
  byte_offset : Nat
  x : Int
  width : Int
deriving DecidableEq, Repr

/-- LineLayout: byte range within the paragraph plus geometry.  The Rust
Range fields are byte_start and byte_stop here. -/
structure LineLayout where
  byte_start : Nat
  byte_stop : Nat
  clusters : List ClusterInfo
  height : Int
  baseline : Int
  width : Int
deriving DecidableEq, Repr

/-- BlockKind::spacing_after, already multiplied by the fixed 16-pixel unit
the line breaker applies to it (1.0, 0.5 and 0.25 line heights give 16, 8
and 4 pixels; scaling keeps the value an exact integer). -/
def BlockKind.spacing_after16 : BlockKind → Int
  | .Paragraph => 16
  | .Heading _ => 8
  | .ListItem _ _ => 4

/-- Mutable state of the line-breaking loop in
LineBreaker::layout_paragraph. -/
structure BreakState where
  lines : List LineLayout
  line_start : Nat
  x : Int
  clusters : List ClusterInfo
  last_break_point : Option Nat
  last_break_x : Int
  current_line_height : Int
deriving Repr

/-- One iteration of the grapheme loop of LineBreaker::layout_paragraph:
explicit newlines close the line, whitespace records a break point, an
overflowing cluster triggers a soft wrap at the recorded break point (or an
emergency break), and the cluster is then appended. -/
def breakStep (styles : List StyleSpan) (lib : FontLibrary)
    (effective_width : Int) (st : BreakState) (ig : Nat × Char) : BreakState :=
  let byte_idx := ig.1
  let g := ig.2
  let font_id :=
    match styles.find? (fun s => s.start ≤ byte_idx ∧ byte_idx < s.stop) with
    | some s => s.font_id
    | none => 0
  let metrics :=
    match libGet lib font_id with
    | some m => m
    | none =>
      match libGet lib 0 with
      | some m => m
      | none => ⟨0, [], 0⟩
  let st := { st with
    current_line_height := max st.current_line_height metrics.line_height }
  if g = '\n' then
    { st with
      lines := st.lines ++ [{
        byte_start := st.line_start
        byte_stop := byte_idx
        clusters := st.clusters
        height := if st.current_line_height = 0 then metrics.line_height
                  else st.current_line_height
        baseline := BASELINE
        width := st.x }]
      line_start := byte_idx + 1
      x := 0
      clusters := []
      last_break_point := none
      current_line_height := 0 }
  else
    let cluster_width :=
      if g = '\t' then metrics.default_width * 4
      else if isCtrl g then 0
      else metrics.width g
    let st :=
      if isWS g then
        { st with last_break_point := some (byte_idx + 1),
                  last_break_x := st.x + cluster_width }
      else st
    let st :=
      if st.x + cluster_width > effective_width ∧ st.clusters ≠ [] then
        let bk : Nat × Int :=
          match st.last_break_point with
          | some bp => (bp, st.last_break_x)
          | none => (byte_idx, st.x)
        let break_idx :=
          match st.clusters.findIdx? (fun c => c.byte_offset ≥ bk.1) with
          | some i => i
          | none => st.clusters.length
        let line_clusters := st.clusters.take break_idx
        let remaining := st.clusters.drop break_idx
        let line_width :=
          match line_clusters.getLast? with
          | some c => c.x + c.width
          | none => 0
        { st with
          lines := st.lines ++ [{
            byte_start := st.line_start
            byte_stop := bk.1
            clusters := line_clusters
            height := st.current_line_height
            baseline := BASELINE
            width := line_width }]
          clusters := remaining.map (fun c => { c with x := c.x - bk.2 })
          line_start := bk.1
          x := st.x - bk.2
          last_break_point := none
          current_line_height := metrics.line_height }
      else st
    { st with
      clusters := st.clusters ++ [⟨byte_idx, st.x, cluster_width⟩]
      x := st.x + cluster_width }

/-- ParagraphLayout: the lines plus total height and content hash (the hash
is irrelevant to the claims and omitted). -/
structure ParagraphLayout where
  lines : List LineLayout
  total_height : Int
deriving DecidableEq, Repr

/-- LineBreaker::layout_paragraph: reduce the width for list indentation,
give empty text one empty line, otherwise run the grapheme loop and close
the final line; total height adds spacing_after times 16. -/
def layout_paragraph (text : List Char) (meta : BlockMeta) (max_width : Int)
    (lib : FontLibrary) : ParagraphLayout :=
  let effective_width :=
    match meta.kind with
    | .ListItem _ indent => max_width - (indent : Int) * INDENT_WIDTH
    | _ => max_width
  let defaultHeight :=
    match libGet lib 0 with
    | some m => m.line_height
    | none => 16
  let lines :=
    if text = [] then
      [{ byte_start := 0, byte_stop := 0, clusters := [], height := defaultHeight,
         baseline := BASELINE, width := 0 }]
    else
      let st := text.enum.foldl (breakStep meta.styles lib effective_width)
        { lines := [], line_start := 0, x := 0, clusters := [],
          last_break_point := none, last_break_x := 0, current_line_height := 0 }
      st.lines ++ [{
        byte_start := st.line_start
        byte_stop := text.length
        clusters := st.clusters
        height := if st.current_line_height = 0 then defaultHeight
                  else st.current_line_height
        baseline := BASELINE
        width := st.x }]
  { lines := lines
    total_height := (lines.map (·.height)).sum + meta.kind.spacing_after16 }

/-! ## Pagination (src/layout/engine.rs, LayoutState::repaginate)

A full repagination walks every line of every paragraph in document order;
the walk is modelled on the flattened sequence of line heights, and each
PageLayout is represented by the heights of the lines assigned to it (the
start and end bookkeeping of the source delimits exactly these contiguous
segments). -/

/-- Sum of a list of line heights. -/
def sumHeights (l : List Int) : Int := l.foldl (· + ·) 0

/-- One line placement of the repagination loop: close the page when the
line would overflow a non-empty page, then place the line. -/
def paginateStep (ch : Int) (st : List (List Int) × List Int × Int) (h : Int) :
    List (List Int) × List Int × Int :=
  let (pages, cur, y) := st
  if y + h > ch ∧ y > 0 then (pages ++ [cur], [h], h)
  else (pages, cur ++ [h], y + h)

/-- LayoutState::repaginate on the flattened line heights (full
repagination): fold the placement loop and push the final page, so at least
one page always exists. -/
def repaginate (lines : List Int) (ch : Int) : List (List Int) :=
  let st := lines.foldl (paginateStep ch) ([], [], 0)
  st.1 ++ [st.2.1]

/-! ## Flat render buffer (src/wasm/flat_buffer.rs)

The u32 array is a list of naturals (the casts from usize stay within u32
range on the 32-bit wasm target the buffer is written for), the f32 array a
list of rationals whose values are never inspected, and the text array a
byte list.  Strings passed to write_line carry their UTF-8 bytes together
with their UTF-16 code-unit length, which the Rust code derives from the
same &str. -/

/-- MAGIC constant of the flat buffer. -/
def MAGIC : Nat := 0x4D575244

/-- SCHEMA_VERSION constant of the flat buffer. -/
def SCHEMA_VERSION : Nat := 1

/-- HEADER_SIZE constant of the flat buffer. -/
def HEADER_SIZE : Nat := 12

/-- The u32::MAX sentinel used for an absent selection range. -/
def U32MAX : Nat := 4294967295

/-- A &str argument: UTF-8 bytes plus UTF-16 code-unit length. -/
structure MStr where
  bytes : List Nat
  utf16 : Nat
deriving DecidableEq, Repr

/-- PendingCursor, buffered until finalize. -/
structure PendingCursor where
  x : Int
  y : Int
  height : Int
  page_index : Nat
  utf16_offset_in_line : Nat
deriving DecidableEq, Repr

/-- PendingSelection, buffered until finalize. -/
structure PendingSelection where
  x : Int
  y : Int
  width : Int
  height : Int
  page_index : Nat
deriving DecidableEq, Repr

/-- RenderBuffer state. -/
structure RenderBuffer where
  u32_data : List Nat
  f32_data : List Int
  text_data : List Nat
  style_data : List Nat
  pending_cursor : Option PendingCursor
  pending_selections : List PendingSelection
  utf16_text_offset : Nat
deriving DecidableEq, Repr

namespace RenderBuffer

/-- RenderBuffer::new (all buffers empty). -/
def new : RenderBuffer := ⟨[], [], [], [], none, [], 0⟩

/-- RenderBuffer::write_header: the twelve header slots, with the version
split into low and high u32 halves and placeholders for the rest. -/
def write_header (b : RenderBuffer) (version page_count : Nat) : RenderBuffer :=
  { b with u32_data := b.u32_data ++
      [MAGIC, SCHEMA_VERSION, version % 2 ^ 32, version / 2 ^ 32,
       page_count, 0, 0, 0, 0, 0, 0, 0] }

/-- RenderBuffer::begin_page: page index plus a line-count placeholder in the
u32 array, page geometry in the f32 array. -/
def begin_page (b : RenderBuffer) (page_index : Nat) (y w h : Int) :
    RenderBuffer :=
  { b with
    u32_data := b.u32_data ++ [page_index, 0]
    f32_data := b.f32_data ++ [y, w, h] }

/-- RenderBuffer::write_line: append the text (and optional marker) to the
text array, the fourteen-word record to the u32 array, the styles to the
style array and the position to the f32 array. -/
def write_line (b : RenderBuffer) (x y : Int) (text : MStr)
    (block_type flags : Nat) (marker : Option MStr)
    (sel : Option (Nat × Nat)) (styles : List (Nat × Nat × Nat)) :
    RenderBuffer :=
  let text_offset := b.text_data.length
  let text1 := b.text_data ++ text.bytes
  let text_len := text.bytes.length
  let text_utf16_offset := b.utf16_text_offset
  let utf16a := b.utf16_text_offset + text.utf16
  let marker_offset := text1.length
  let (text2, utf16b, marker_len, marker_utf16_offset, marker_utf16_len) :=
    match marker with
    | some m => (text1 ++ m.bytes, utf16a + m.utf16, m.bytes.length, utf16a, m.utf16)
    | none => (text1, utf16a, 0, 0, 0)
  let (sel_start, sel_stop) :=
    match sel with
    | some p => p
    | none => (U32MAX, U32MAX)
  let style_start_idx := b.style_data.length
  let style_count := styles.length
  { b with
    text_data := text2
    utf16_text_offset := utf16b
    style_data := b.style_data ++
      styles.foldl (fun acc s => acc ++ [s.1, s.2.1, s.2.2]) []
    u32_data := b.u32_data ++
      [text_offset, text_len, text_utf16_offset, text.utf16,
       block_type, flags, marker_offset, marker_len, marker_utf16_offset,
       marker_utf16_len, sel_start, sel_stop, style_start_idx, style_count]
    f32_data := b.f32_data ++ [x, y] }

/-- RenderBuffer::write_cursor: replace the pending cursor. -/
def write_cursor (b : RenderBuffer) (x y h : Int) (page utf16 : Nat) :
    RenderBuffer :=
  { b with pending_cursor := some ⟨x, y, h, page, utf16⟩ }

/-- RenderBuffer::write_selection: append a pending selection. -/
def write_selection (b : RenderBuffer) (x y w h : Int) (page : Nat) :
    RenderBuffer :=
  { b with pending_selections := b.pending_selections ++ [⟨x, y, w, h, page⟩] }

/-- RenderBuffer::finalize: flush the pending cursor and selections after all
page data, stamping their offsets and the presence flags and the text length
into the header slots.  The intermediate buffer states of the source are
linearized into the pair of arrays each stage produces. -/
def finalize (b : RenderBuffer) : RenderBuffer :=
  if b.u32_data.length < HEADER_SIZE then b
  else
    let s1 : List Nat × List Int :=
      match b.pending_cursor with
      | some c =>
        ((((b.u32_data.set 8 b.u32_data.length).set 10 b.f32_data.length)
            ++ [c.page_index, c.utf16_offset_in_line]).set 5 1,
         b.f32_data ++ [c.x, c.y, c.height])
      | none => ((b.u32_data.set 5 0).set 10 0, b.f32_data)
    let s2 : List Nat × List Int :=
      if b.pending_selections.isEmpty then
        ((s1.1.set 6 0).set 11 0, s1.2)
      else
        (((s1.1.set 9 s1.1.length).set 11 s1.2.length
            ++ b.pending_selections.map (·.page_index)).set 6
          b.pending_selections.length,
         s1.2 ++ b.pending_selections.foldl
          (fun acc s => acc ++ [s.x, s.y, s.width, s.height]) [])
    { b with
      u32_data := s2.1.set 7 b.text_data.length
      f32_data := s2.2 }

end RenderBuffer

/-- The calls the flat-buffer claim ranges over between write_header and
finalize. -/
inductive BufOp where
  | beginPage (page_index : Nat) (y w h : Int)
  | writeLine (x y : Int) (text : MStr) (block_type flags : Nat)
      (marker : Option MStr) (sel : Option (Nat × Nat))
      (styles : List (Nat × Nat × Nat))
  | writeCursor (x y h : Int) (page utf16 : Nat)
  | writeSelection (x y w h : Int) (page : Nat)

/-- Dispatch one buffered call. -/
def runBufOp (b : RenderBuffer) : BufOp → RenderBuffer
  | .beginPage i y w h => b.begin_page i y w h
  | .writeLine x y t bt fl mk sel st => b.write_line x y t bt fl mk sel st
  | .writeCursor x y h p u => b.write_cursor x y h p u
  | .writeSelection x y w h p => b.write_selection x y w h p

/-- Run a sequence of buffered calls. -/
def runBufOps (b : RenderBuffer) (ops : List BufOp) : RenderBuffer :=
  ops.foldl runBufOp b

/-! ## Definitions used by the claim statements -/

/-- The round-trip text of the text-round-trip invariant: concatenation of
paragraph_text over the paragraphs in index order, separated by a newline. -/
def roundTrip (d : Document) : List Byte :=
  match d.pindex.order.map d.paragraph_text with
  | [] => []
  | t :: ts => ts.foldl (fun acc p => acc ++ NL :: p) t

mutual

/-- Effect of Document::apply_edit on the rope content alone. -/
def applyContent (t : List Byte) : EditOp → List Byte
  | .Insert p s => ropeInsert t p s
  | .Delete a b => ropeDelete t a b
  | .Tx ops => applyContentList t ops

/-- Effect of a transaction's child list on the rope content. -/
def applyContentList (t : List Byte) : List EditOp → List Byte
  | [] => t
  | op :: rest => applyContentList (applyContent t op) rest

end

/-- An atomic operation whose insert position is in range (the setting of the
undo-redo claim: deletes are clamped by the rope, inserts must land inside
the text for the recorded reverse to delete exactly the inserted bytes). -/
def AtomicIn (t : List Byte) : EditOp → Prop
  | .Insert p _ => p ≤ t.length
  | .Delete _ _ => True
  | .Tx _ => False

/-- A sequence of atomic in-range operations, each judged against the text
produced by its predecessors. -/
def ValidSeq : List Byte → List EditOp → Prop
  | _, [] => True
  | t, op :: rest => AtomicIn t op ∧ ValidSeq (applyContent t op) rest

/-- Content-level replay of a transaction's reverse ops, in the order
UndoManager::undo applies them. -/
def revsContent (t : List Byte) (txn : Txn) : List Byte :=
  txn.rev.reverse.foldl applyContent t

/-- Content-level replay of a transaction's forward ops, in the order
UndoManager::redo applies them. -/
def fwdsContent (t : List Byte) (txn : Txn) : List Byte :=
  txn.fwd.foldl applyContent t

/-- Invariant of the undo stack (top at head): undoing each transaction in
turn walks the text back to the initial text, and redoing a transaction from
its pre-state restores its post-state. -/
def StackChain : List Txn → List Byte → List Byte → Prop
  | [], cur, init => cur = init
  | txn :: rest, cur, init =>
    fwdsContent (revsContent cur txn) txn = cur ∧
    StackChain rest (revsContent cur txn) init

/-- Number of begin_page calls in a buffered sequence. -/
def bufPages (ops : List BufOp) : Nat :=
  (ops.filter fun o => match o with | .beginPage _ _ _ _ => true | _ => false).length

/-- Number of write_line calls in a buffered sequence. -/
def bufLines (ops : List BufOp) : Nat :=
  (ops.filter fun o =>
    match o with | .writeLine _ _ _ _ _ _ _ _ => true | _ => false).length

/-- The twelve header words written by RenderBuffer::write_header. -/
def hdrList (v pc : Nat) : List Nat :=
  [MAGIC, SCHEMA_VERSION, v % 2 ^ 32, v / 2 ^ 32, pc, 0, 0, 0, 0, 0, 0, 0]

/-- The fourteen-word u32 records appended by the write_line calls of a
sequence, replayed from a starting buffer. -/
def lineChunks (b : RenderBuffer) : List BufOp → List (List Nat)
  | [] => []
  | op :: rest =>
    let b' := runBufOp b op
    (match op with
     | .writeLine _ _ _ _ _ _ _ _ => [b'.u32_data.drop b.u32_data.length]
     | _ => []) ++ lineChunks b' rest

/-! ## Concrete states used by the counterexample evaluations -/

/-- New document after inserting the bytes of a, newline, b at offset 0. -/
def c1doc : Document := (Document.new.apply_edit (.Insert 0 [97, 10, 98])).1

/-- New document after inserting the bytes of Hello at offset 0. -/
def c4doc : Document :=
  (Document.new.apply_edit (.Insert 0 [72, 101, 108, 108, 111])).1

/-- Document built from the bytes of a, newline, b, then split by inserting
c, newline, d at offset 1: the fresh paragraph id 2 is ordered before the
older id 1. -/
def c5doc : Document :=
  ((Document.from_text [97, 10, 98]).apply_edit (.Insert 1 [99, 10, 100])).1

/-- Document built from the bytes of a, b, c, formatted with font 1 over
bytes 0 to 2, after deleting bytes 1 to 3. -/
def c7doc : Document :=
  (((Document.from_text [97, 98, 99]).format_range 0 2 1).1.apply_edit
    (.Delete 1 3)).1

/-- Document holding the bytes of x and y, the initial state of the
undo-redo counterexample. -/
def c2init : Document := Document.from_text [120, 121]

/-- A transaction op whose second child depends on the first: two deletions
of the first byte. -/
def c2op : EditOp := .Tx [.Delete 0 1, .Delete 0 1]

/-- Editor state after applying and recording the transaction op on the
two-byte document. -/
def c2state : UndoManager × Document × Cursor :=
  editStep (UndoManager.new 100, c2init, ⟨⟨0, 0⟩⟩) c2op

/-- Font library with a single font of width 8 for every character and line
height 10, as in the wrap scenario of the spec. -/
def c6lib : FontLibrary := [(0, ⟨10, List.replicate 256 8, 8⟩)]

/-- Plain paragraph metadata with no styles. -/
def c6meta : BlockMeta := ⟨.Paragraph, 0, 0, []⟩

/-- The characters of the text Hello World. -/
def c6text : List Char := ['H', 'e', 'l', 'l', 'o', ' ', 'W', 'o', 'r', 'l', 'd']

/-- Layout of Hello World at effective content width 40 with the width-8
font. -/
def c6layout : ParagraphLayout := layout_paragraph c6text c6meta 40 c6lib

end MiniWord

namespace MiniWord

/-! # Claim theorems -/

/-- C1.  The claim states that after any sequence of in-range apply_edit
calls the document text equals the newline-separated concatenation of the
paragraph texts in index order.  The code violates it: inserting the bytes
of a, newline, b into a new document leaves the created paragraph's block
start_offset double-shifted (to 5, past the 3-byte text), so its
paragraph_text is empty and the concatenation drops the final b. -/
theorem C1_round_trip_code_bug :
    c1doc.text = [97, 10, 98] ∧
    roundTrip c1doc = [97, 10] ∧
    roundTrip c1doc ≠ c1doc.text := by decide

/-- C4.  The claim states that each paragraph's block byte_len equals the
length of its paragraph_text and that the paragraph index stores the same
start and length pair as the block metadata.  The code violates the second
conjunct after a plain insert: update_lengths_after shifts starts only, so
the index still records length 0 for the edited paragraph while the block
records 5. -/
theorem C4_paragraph_byte_consistency_code_bug :
    (alookup c4doc.blocks 0).map (fun m => (m.start_offset, m.byte_len)) =
      some (0, 5) ∧
    alookup c4doc.pindex.para_bounds 0 = some (0, 0) ∧
    ((0, 5) : Nat × Nat) ≠ ((0, 0) : Nat × Nat) := by decide

/-- C7.  The claim states that every style span satisfies start strictly
below stop after any edits.  The code violates it: the clip branch of
BlockMeta::on_delete shrinks a span that begins before the deleted range
without an emptiness check, so formatting bytes 0 to 2 of abc with font 1
and deleting bytes 1 to 3 leaves the empty span from 0 to 0. -/
theorem C7_style_span_code_bug :
    (alookup c7doc.blocks 0).map (·.styles) =
      some [{ start := 0, stop := 0, font_id := 1 }] ∧
    ¬ (0 : Nat) < (0 : Nat) := by decide

/-- C3, counterexample.  The claim states that every top-level apply_edit
call increments the version by exactly one, also for transactions; but a
transaction holding a single insert increments a fresh document's version
from 0 to 2, because each child op bumps the version again. -/
theorem C3_version_counterexample :
    (Document.new.apply_edit (.Tx [.Insert 0 [97]])).1.version = 2 ∧
    Document.new.version = 0 := by decide

/-- C5, counterexample.  The claim states that the DocPosition order is
lexicographic by paragraph sequence index, so Selection::ordered returns the
document-order-first position first.  In the reachable document whose
paragraph sequence is 0, 2, 1, the position at paragraph 2 comes first in
document order, yet ordered, which compares raw ids, returns the position at
paragraph 1 as its first component. -/
theorem C5_ordering_counterexample :
    c5doc.pindex.order = [0, 2, 1] ∧
    seqIndex c5doc 2 = some 1 ∧
    seqIndex c5doc 1 = some 2 ∧
    (Selection.ordered ⟨⟨1, 0⟩, ⟨2, 0⟩⟩).1 = ⟨1, 0⟩ := by decide

/-- C6, counterexample.  The claim states that the two wrapped lines of
Hello World at width 40 have byte ranges 0 to 5 and 6 to 11 with the space
belonging to neither; in the code the break offset is the recorded break
point after the whitespace, so the first line's range is 0 to 6. -/
theorem C6_wrap_counterexample :
    (c6layout.lines.map fun l => (l.byte_start, l.byte_stop)) = [(0, 6), (6, 11)] ∧
    (c6layout.lines.map fun l => (l.byte_start, l.byte_stop)) ≠ [(0, 5), (6, 11)] := by
  decide

/-- C8, counterexample.  The claim states that every non-last page's line
heights sum to at most the content height even when a single line is taller
than the page; but a line of height 150 against content height 100 is placed
on an otherwise empty page, which is then closed with a sum exceeding the
content height while a second page follows it. -/
theorem C8_pagination_counterexample :
    repaginate [150, 10] 100 = [[150], [10]] ∧ ¬ sumHeights [150] ≤ 100 := by decide

/-! ## Supporting lemmas -/

theorem sumHeights_concat (l : List Int) (x : Int) :
    sumHeights (l ++ [x]) = sumHeights l + x := by
  simp [sumHeights, List.foldl_append]

theorem sumHeights_singleton (x : Int) : sumHeights [x] = x := by
  simp [sumHeights]

theorem headD_append_left {α : Type} (l : List α) (x : α) (d : α)
    (h : l ≠ []) : (l ++ [x]).headD d = l.headD d := by
  cases l with
  | nil => exact absurd rfl h
  | cons a t => rfl

/-- The relation the pagination loop enforces between consecutive pages:
the closed page would overflow if it also took the next page's first line. -/
def pageEdge (ch : Int) (p q : List Int) : Prop :=
  ch < sumHeights p + q.headD 0

/-- Structural invariant of the pagination fold: the running height equals
the current page's sum, consecutive pages (including the running one)
satisfy the overflow edge, and the current page is only empty while no page
has been closed. -/
theorem paginate_fold_edges (ch : Int) :
    ∀ (lines : List Int) (pages : List (List Int)) (cur : List Int) (y : Int),
    y = sumHeights cur →
    List.Chain' (pageEdge ch) (pages ++ [cur]) →
    (pages = [] ∨ cur ≠ []) →
    (lines.foldl (paginateStep ch) (pages, cur, y)).2.2 =
      sumHeights (lines.foldl (paginateStep ch) (pages, cur, y)).2.1 ∧
    List.Chain' (pageEdge ch)
      ((lines.foldl (paginateStep ch) (pages, cur, y)).1 ++
        [(lines.foldl (paginateStep ch) (pages, cur, y)).2.1]) := by
  intro lines
  induction lines with
  | nil =>
    intro pages cur y hy hch _
    exact ⟨hy, hch⟩
  | cons h rest ih =>
    intro pages cur y hy hch hne
    simp only [List.foldl_cons, paginateStep]
    by_cases hc : y + h > ch ∧ y > 0
    · simp only [if_pos hc]
      apply ih
      · rw [sumHeights_singleton]
      · rw [List.chain'_append]
        refine ⟨hch, List.chain'_singleton _, ?_⟩
        intro x hx q hq
        simp only [List.getLast?_concat, Option.mem_def, Option.some.injEq] at hx
        simp only [List.head?_cons, Option.mem_def, Option.some.injEq] at hq
        subst hx; subst hq
        simp only [pageEdge, List.headD_cons]
        omega
      · right; simp
    · simp only [if_neg hc]
      apply ih
      · rw [sumHeights_concat, hy]
      · rcases hne with hne | hne
        · subst hne
          simp only [List.nil_append]
          exact List.chain'_singleton (R := pageEdge ch) (cur ++ [h])
        · rw [List.chain'_append] at hch ⊢
          refine ⟨hch.1, List.chain'_singleton _, ?_⟩
          intro x hx q hq
          simp only [List.head?_cons, Option.mem_def, Option.some.injEq] at hq
          subst hq
          have := hch.2.2 x hx (cur) (by simp)
          simp only [pageEdge] at this ⊢
          rwa [headD_append_left _ _ _ hne]
      · right; simp

/-- Height invariant of the pagination fold: when every line height is
bounded by the content height, every closed page and the running page sum to
at most the content height. -/
theorem paginate_fold_bounds (ch : Int) :
    ∀ (lines : List Int) (pages : List (List Int)) (cur : List Int) (y : Int),
    (∀ h ∈ lines, h ≤ ch) →
    (∀ p ∈ pages, sumHeights p ≤ ch) →
    y = sumHeights cur → y ≤ ch →
    ∀ p ∈ (lines.foldl (paginateStep ch) (pages, cur, y)).1 ++
      [(lines.foldl (paginateStep ch) (pages, cur, y)).2.1],
      sumHeights p ≤ ch := by
  intro lines
  induction lines with
  | nil =>
    intro pages cur y _ hpages hy hyc p hp
    rcases List.mem_append.1 hp with hp | hp
    · exact hpages p hp
    · simp only [List.mem_singleton] at hp
      subst hp
      omega
  | cons h rest ih =>
    intro pages cur y hb hpages hy hyc
    simp only [List.foldl_cons, paginateStep]
    have hhch : h ≤ ch := hb h (by simp)
    by_cases hc : y + h > ch ∧ y > 0
    · simp only [if_pos hc]
      apply ih
      · intro x hx; exact hb x (by simp [hx])
      · intro p hp
        rcases List.mem_append.1 hp with hp | hp
        · exact hpages p hp
        · simp only [List.mem_singleton] at hp
          subst hp; omega
      · rw [sumHeights_singleton]
      · exact hhch
    · simp only [if_neg hc]
      apply ih
      · intro x hx; exact hb x (by simp [hx])
      · exact hpages
      · rw [sumHeights_concat, hy]
      · omega

/-- C8, amended.  Adding the first line of the following page to any
non-last page would exceed the content height; and whenever every line
height is at most the content height, every page's line heights sum to at
most the content height (the original claim also asserted the sum bound for
pages holding a single taller-than-page line, which the counterexample
refutes). -/
theorem C8_pagination_amended (lines : List Int) (ch : Int) :
    List.Chain' (pageEdge ch) (repaginate lines ch) ∧
    (0 ≤ ch → (∀ h ∈ lines, h ≤ ch) →
      ∀ p ∈ repaginate lines ch, sumHeights p ≤ ch) := by
  constructor
  · exact (paginate_fold_edges ch lines [] [] 0 (by simp [sumHeights])
      (by simp) (Or.inl rfl)).2
  · intro hch hb
    exact paginate_fold_bounds ch lines [] [] 0 hb (by simp)
      (by simp [sumHeights]) hch

/-- C8, amended, witness: three lines of heights 50, 60 and 30 at content
height 100 paginate into pages each fitting within the content height. -/
theorem C8_pagination_amended_witness :
    ∀ p ∈ repaginate [(50 : Int), 60, 30] 100, sumHeights p ≤ 100 :=
  (C8_pagination_amended [50, 60, 30] 100).2 (by decide) (by decide)

/-- C6, amended.  With the width-8 font and effective content width 40, the
paragraph Hello World yields exactly two lines; their byte ranges are 0 to 6
and 6 to 11, the whitespace byte being consumed into the first line's range
at the break. -/
theorem C6_wrap_amended :
    c6layout.lines.length = 2 ∧
    (c6layout.lines.map fun l => (l.byte_start, l.byte_stop)) =
      [(0, 6), (6, 11)] := by decide

theorem content_apply_insert (d : Document) (p : Nat) (t : List Byte) :
    (d.apply_insert p t).1.content = ropeInsert d.content p t := rfl

theorem content_apply_delete (d : Document) (a b : Nat) :
    (d.apply_delete a b).1.content = ropeDelete d.content a b := by
  unfold Document.apply_delete
  by_cases h : a ≥ b
  · rw [if_pos h]
    show d.content = ropeDelete d.content a b
    unfold ropeDelete
    rw [if_pos (Or.inl h)]
  · rw [if_neg h]

mutual

theorem content_apply_edit (d : Document) (op : EditOp) :
    (d.apply_edit op).1.content = applyContent d.content op := by
  match op with
  | .Insert p t =>
    show (Document.apply_insert _ p t).1.content = _
    rw [content_apply_insert]
    rfl
  | .Delete a b =>
    show (Document.apply_delete _ a b).1.content = _
    rw [content_apply_delete]
    rfl
  | .Tx ops =>
    show (Document.apply_tx _ ops).1.content = _
    rw [content_apply_tx ops]
    rfl

theorem content_apply_tx (ops : List EditOp) (acc : Document × EditResult) :
    (Document.apply_tx acc ops).1.content =
      applyContentList acc.1.content ops := by
  match ops with
  | [] => rfl
  | o :: rest =>
    show (Document.apply_tx _ rest).1.content = _
    rw [content_apply_tx rest]
    show applyContentList (Document.apply_edit acc.1 o).1.content rest = _
    rw [content_apply_edit acc.1 o]
    rfl

end

theorem ropeDelete_ropeInsert_inv (t s : List Byte) (p : Nat)
    (hp : p ≤ t.length) :
    ropeDelete (ropeInsert t p s) p (p + s.length) = t := by
  by_cases hs : s = []
  · subst hs
    unfold ropeInsert ropeDelete
    rw [if_pos rfl, if_pos (Or.inl (by simp))]
  · unfold ropeInsert ropeDelete
    rw [if_neg hs]
    have hsl : 0 < s.length := List.length_pos.2 hs
    have hlen : (t.take p ++ s ++ t.drop p).length = t.length + s.length := by
      simp only [List.length_append, List.length_take, List.length_drop]
      omega
    rw [if_neg (by push_neg; constructor <;> omega)]
    have htp : (t.take p).length = p := by
      rw [List.length_take]
      omega
    have h1 : (t.take p ++ s ++ t.drop p).take p = t.take p := by
      rw [List.append_assoc, List.take_append_of_le_length (by omega),
        List.take_take]
      congr 1
      omega
    have h2 : (t.take p ++ s ++ t.drop p).drop (p + s.length) = t.drop p := by
      have hl2 : (t.take p ++ s).length = p + s.length := by
        simp [htp]
      rw [List.append_assoc, ← List.append_assoc, ← hl2, List.drop_left]
    rw [h1, h2, List.take_append_drop]

theorem ropeInsert_ropeDelete_inv (t : List Byte) (a b : Nat) :
    ropeInsert (ropeDelete t a b) a (ropeSlice t a b) = t := by
  unfold ropeDelete ropeSlice ropeInsert
  by_cases h : a ≥ b ∨ a ≥ t.length
  · have hsl : (t.take b).drop a = [] := by
      apply List.drop_eq_nil_of_le
      rw [List.length_take]
      omega
    rw [if_pos hsl, if_pos h]
  · push_neg at h
    obtain ⟨hab, hal⟩ := h
    have hta : (t.take a).length = a := by
      rw [List.length_take]
      omega
    have hnil : ¬ (t.take b).drop a = [] := by
      intro hnil
      have := congrArg List.length hnil
      rw [List.length_drop, List.length_take] at this
      simp only [List.length_nil] at this
      omega
    rw [if_neg hnil, if_neg (show ¬ (a ≥ b ∨ a ≥ t.length) by omega)]
    have h1 : (t.take a ++ t.drop b).take a = t.take a := by
      rw [List.take_append_of_le_length (by omega), List.take_take]
      congr 1
      omega
    have h2 : (t.take a ++ t.drop b).drop a = t.drop b := by
      have h2' := List.drop_left (t.take a) (t.drop b)
      rwa [hta] at h2'
    rw [h1, h2]
    have hab2 : t.take a ++ (t.take b).drop a = t.take b := by
      have hbt : (t.take b).take a = t.take a := by
        rw [List.take_take]
        congr 1
        omega
      conv_lhs => rw [← hbt]
      exact List.take_append_drop a (t.take b)
    rw [hab2, List.take_append_drop]

theorem atomic_inversion (d : Document) (op : EditOp)
    (h : AtomicIn d.content op) :
    applyContent (applyContent d.content op) (d.compute_reverse op) =
      d.content := by
  match op with
  | .Insert p s =>
    show applyContent (ropeInsert d.content p s) (.Delete p (p + s.length)) = _
    exact ropeDelete_ropeInsert_inv d.content s p h
  | .Delete a b =>
    show applyContent (ropeDelete d.content a b)
      (.Insert a (ropeSlice d.content a b)) = _
    exact ropeInsert_ropeDelete_inv d.content a b
  | .Tx ops => exact absurd h (by simp [AtomicIn])

theorem foldl_apply_edit_content (ops : List EditOp) :
    ∀ d : Document,
    (ops.foldl (fun dd op => (dd.apply_edit op).1) d).content =
      ops.foldl applyContent d.content := by
  induction ops with
  | nil => intro d; rfl
  | cons o rest ih =>
    intro d
    rw [List.foldl_cons, List.foldl_cons, ih, content_apply_edit]

theorem applyRevs_content (d : Document) (txn : Txn) :
    (applyRevs d txn).content = revsContent d.content txn :=
  foldl_apply_edit_content txn.rev.reverse d

theorem undoAllDoc_content (stack : List Txn) :
    ∀ d : Document,
    (undoAllDoc stack d).content = stack.foldl revsContent d.content := by
  induction stack with
  | nil => intro d; rfl
  | cons t rest ih =>
    intro d
    show (undoAllDoc rest (applyRevs d t)).content = _
    rw [ih, applyRevs_content]
    rfl

theorem stackChain_foldl (stack : List Txn) :
    ∀ cur init, StackChain stack cur init →
      stack.foldl revsContent cur = init := by
  induction stack with
  | nil => intro cur init h; exact h
  | cons t rest ih =>
    intro cur init h
    rw [List.foldl_cons]
    exact ih _ _ h.2

theorem editSteps_stack_chain (md : Nat) (init : List Byte) :
    ∀ (ops : List EditOp) (um : UndoManager) (d : Document) (c : Cursor),
    um.max_depth = md →
    StackChain um.undo_stack d.content init →
    ValidSeq d.content ops →
    um.undo_stack.length + ops.length ≤ md →
    StackChain (ops.foldl editStep (um, d, c)).1.undo_stack
      (ops.foldl editStep (um, d, c)).2.1.content init ∧
    (ops.foldl editStep (um, d, c)).1.max_depth = md ∧
    (ops.foldl editStep (um, d, c)).1.undo_stack.length =
      um.undo_stack.length + ops.length := by
  intro ops
  induction ops with
  | nil =>
    intro um d c hmd hchain _ _
    exact ⟨hchain, hmd, rfl⟩
  | cons op rest ih =>
    intro um d c hmd hchain hv hlen
    subst hmd
    rw [List.foldl_cons]
    have hstep : editStep (um, d, c) op =
        ({ um with
            pending := none
            redo_stack := []
            undo_stack := ⟨[op], [d.compute_reverse op], c⟩ :: um.undo_stack },
         (d.apply_edit op).1, ⟨(d.apply_edit op).2.new_cursor⟩) := by
      show ((((um.begin_transaction c).record_edit op
        (d.compute_reverse op)).commit), (d.apply_edit op).1,
        (⟨(d.apply_edit op).2.new_cursor⟩ : Cursor)) = _
      unfold UndoManager.begin_transaction UndoManager.record_edit
        UndoManager.commit
      simp only [List.nil_append]
      rw [if_neg (by simp)]
      have htake : ((⟨[op], [d.compute_reverse op], c⟩ : Txn) ::
          um.undo_stack).take um.max_depth =
          (⟨[op], [d.compute_reverse op], c⟩ : Txn) :: um.undo_stack := by
        apply List.take_of_length_le
        simp only [List.length_cons, List.length_cons] at hlen ⊢
        omega
      rw [htake]
    rw [hstep]
    have hrev : revsContent (d.apply_edit op).1.content
        ⟨[op], [d.compute_reverse op], c⟩ = d.content := by
      show applyContent (d.apply_edit op).1.content (d.compute_reverse op) = _
      rw [content_apply_edit]
      exact atomic_inversion d op hv.1
    have hfwd : fwdsContent d.content ⟨[op], [d.compute_reverse op], c⟩ =
        (d.apply_edit op).1.content := by
      show applyContent d.content op = _
      rw [content_apply_edit]
    have hchain' : StackChain
        ((⟨[op], [d.compute_reverse op], c⟩ : Txn) :: um.undo_stack)
        (d.apply_edit op).1.content init := by
      refine ⟨?_, ?_⟩
      · rw [hrev, hfwd]
      · rw [hrev]
        exact hchain
    have hv' : ValidSeq (d.apply_edit op).1.content rest := by
      rw [content_apply_edit]
      exact hv.2
    have := ih ({ um with
        pending := none
        redo_stack := []
        undo_stack := ⟨[op], [d.compute_reverse op], c⟩ :: um.undo_stack })
      (d.apply_edit op).1 ⟨(d.apply_edit op).2.new_cursor⟩
      rfl hchain' hv' (by simp only [List.length_cons] at hlen ⊢; omega)
    refine ⟨this.1, this.2.1, ?_⟩
    rw [this.2.2]
    simp only [List.length_cons]
    omega

theorem undo_step_spec (um : UndoManager) (d : Document) (t : Txn)
    (rest : List Txn) (h : um.undo_stack = t :: rest) :
    (um.undo d).2.1.content = revsContent d.content t ∧
    (um.undo d).2.2 = some ⟨t.cursor_before⟩ ∧
    (um.undo d).1.redo_stack = t :: um.redo_stack ∧
    (um.undo d).1.undo_stack = rest := by
  unfold UndoManager.undo
  rw [h]
  exact ⟨foldl_apply_edit_content t.rev.reverse d, rfl, rfl, rfl⟩

theorem redo_fold_content (ops : List EditOp) :
    ∀ (d : Document) (c : Cursor),
    (ops.foldl (fun (acc : Document × Cursor) op =>
        let r := acc.1.apply_edit op
        (r.1, ⟨r.2.new_cursor⟩)) (d, c)).1.content =
      ops.foldl applyContent d.content := by
  induction ops with
  | nil => intro d c; rfl
  | cons o rest ih =>
    intro d c
    rw [List.foldl_cons, List.foldl_cons]
    show (rest.foldl _ ((d.apply_edit o).1, _)).1.content = _
    rw [ih, content_apply_edit]

theorem redo_step_spec (um : UndoManager) (d : Document) (t : Txn)
    (rest : List Txn) (h : um.redo_stack = t :: rest) :
    (um.redo d).2.1.content = fwdsContent d.content t := by
  unfold UndoManager.redo
  rw [h]
  exact redo_fold_content t.fwd d t.cursor_before

/-- C2, counterexample.  The claim asserts that undoing all recorded
transactions restores the initial text for any recorded edit sequence; but
recording the transaction op holding two dependent single-byte deletions on
the two-byte text x y computes both child reverses against the same
pre-state, so one undo step rebuilds the text x x instead of x y. -/
theorem C2_undo_counterexample :
    c2init.text = [120, 121] ∧
    c2state.2.1.text = [] ∧
    (undoAllDoc c2state.1.undo_stack c2state.2.1).text = [120, 120] ∧
    (undoAllDoc c2state.1.undo_stack c2state.2.1).text ≠ c2init.text := by
  decide

/-- C2, amended.  For any sequence of atomic Insert or Delete operations
with in-range insert positions, each applied and recorded as its own
transaction, and whose length does not exceed the undo manager's depth bound
(so no transaction is dropped): undoing every recorded transaction restores
the initial text; and when the sequence is non-empty, one undo returns the
top transaction's saved cursor_before and a subsequent redo restores the
text the sequence had produced. -/
theorem C2_undo_redo_amended (d0 : Document) (c0 : Cursor) (md : Nat)
    (ops : List EditOp) (hv : ValidSeq d0.content ops)
    (hlen : ops.length ≤ md) :
    (undoAllDoc (ops.foldl editStep (UndoManager.new md, d0, c0)).1.undo_stack
      (ops.foldl editStep (UndoManager.new md, d0, c0)).2.1).content =
      d0.content ∧
    (ops ≠ [] →
      ∃ t rest,
        (ops.foldl editStep (UndoManager.new md, d0, c0)).1.undo_stack =
          t :: rest ∧
        ((ops.foldl editStep (UndoManager.new md, d0, c0)).1.undo
          (ops.foldl editStep (UndoManager.new md, d0, c0)).2.1).2.2 =
          some ⟨t.cursor_before⟩ ∧
        ((((ops.foldl editStep (UndoManager.new md, d0, c0)).1.undo
            (ops.foldl editStep (UndoManager.new md, d0, c0)).2.1).1).redo
          (((ops.foldl editStep (UndoManager.new md, d0, c0)).1.undo
            (ops.foldl editStep (UndoManager.new md, d0, c0)).2.1).2.1)).2.1.content =
          (ops.foldl editStep (UndoManager.new md, d0, c0)).2.1.content) := by
  have hmain := editSteps_stack_chain md d0.content ops (UndoManager.new md)
    d0 c0 rfl rfl hv (by simp [UndoManager.new]; omega)
  constructor
  · rw [undoAllDoc_content]
    exact stackChain_foldl _ _ _ hmain.1
  · intro hne
    rcases hstack : (ops.foldl editStep (UndoManager.new md, d0, c0)).1.undo_stack
      with _ | ⟨t, rest⟩
    · exfalso
      have := hmain.2.2
      rw [hstack] at this
      simp only [List.length_nil, UndoManager.new] at this
      have : ops.length = 0 := by omega
      exact hne (List.length_eq_zero.1 this)
    · refine ⟨t, rest, rfl, ?_, ?_⟩
      · exact (undo_step_spec _ _ t rest hstack).2.1
      · have hu := undo_step_spec
          (ops.foldl editStep (UndoManager.new md, d0, c0)).1
          (ops.foldl editStep (UndoManager.new md, d0, c0)).2.1 t rest hstack
        rw [redo_step_spec _ _ t (((ops.foldl editStep
            (UndoManager.new md, d0, c0)).1).redo_stack) hu.2.2.1]
        rw [hu.1]
        have hch := hmain.1
        rw [hstack] at hch
        exact hch.1

/-- C2, amended, witness: one in-range insert on the empty document, depth
bound 100. -/
theorem C2_undo_redo_amended_witness :
    ValidSeq Document.new.content [.Insert 0 [97]] ∧
    (undoAllDoc
      ([(.Insert 0 [97] : EditOp)].foldl editStep
        (UndoManager.new 100, Document.new, ⟨⟨0, 0⟩⟩)).1.undo_stack
      ([(.Insert 0 [97] : EditOp)].foldl editStep
        (UndoManager.new 100, Document.new, ⟨⟨0, 0⟩⟩)).2.1).content =
      Document.new.content :=
  ⟨⟨by simp [AtomicIn], trivial⟩,
   (C2_undo_redo_amended Document.new ⟨⟨0, 0⟩⟩ 100 [.Insert 0 [97]]
     ⟨by simp [AtomicIn], trivial⟩ (by decide)).1⟩

theorem version_apply_insert (d : Document) (p : Nat) (t : List Byte) :
    (d.apply_insert p t).1.version = d.version := rfl

theorem version_apply_delete (d : Document) (a b : Nat) :
    (d.apply_delete a b).1.version = d.version := by
  unfold Document.apply_delete
  split <;> rfl

mutual

theorem version_apply_edit (d : Document) (op : EditOp) :
    (d.apply_edit op).1.version = d.version + Document.opCount op := by
  match op with
  | .Insert p t =>
    show (Document.apply_insert _ p t).1.version = _
    rw [version_apply_insert]
    simp [Document.opCount]
  | .Delete a b =>
    show (Document.apply_delete _ a b).1.version = _
    rw [version_apply_delete]
    simp [Document.opCount]
  | .Tx ops =>
    show (Document.apply_tx _ ops).1.version = _
    rw [version_apply_tx ops]
    have hc : Document.opCount (.Tx ops) =
        1 + (ops.map Document.opCount).sum := by
      simp [Document.opCount, List.attach_map_val]
    rw [hc]
    show d.version + 1 + (ops.map Document.opCount).sum = _
    omega

theorem version_apply_tx (ops : List EditOp) (acc : Document × EditResult) :
    (Document.apply_tx acc ops).1.version =
      acc.1.version + (ops.map Document.opCount).sum := by
  match ops with
  | [] => simp [Document.apply_tx]
  | o :: rest =>
    show (Document.apply_tx _ rest).1.version = _
    rw [version_apply_tx rest]
    show (Document.apply_edit acc.1 o).1.version + _ = _
    rw [version_apply_edit acc.1 o]
    simp only [List.map_cons, List.sum_cons]
    omega

end

/-- C3, amended.  Document::apply_edit increments the version by the number
of EditOp nodes in the operation tree, hence by exactly one for a plain
Insert or Delete but by one plus the node counts of its children for a
Transaction; Document::format_range increments the version by exactly one
when the range is non-empty and leaves it unchanged otherwise. -/
theorem C3_version_amended (d : Document) (op : EditOp)
    (start stop font : Nat) :
    (d.apply_edit op).1.version = d.version + Document.opCount op ∧
    (d.format_range start stop font).1.version =
      (if start < stop then d.version + 1 else d.version) := by
  refine ⟨version_apply_edit d op, ?_⟩
  unfold Document.format_range
  by_cases h : start ≥ stop
  · rw [if_pos h, if_neg (by omega)]
  · rw [if_neg h, if_pos (by omega)]

theorem onInsert_len_zero (styles : List StyleSpan) (o : Nat) :
    onInsert styles o 0 = styles := by
  unfold onInsert
  split
  · rfl
  · rw [show styles.map _ = styles.map id from List.map_congr_left ?_,
      List.map_id]
    intro s _
    by_cases h1 : o > s.start ∧ o ≤ s.stop
    · simp [h1]
    · by_cases h2 : o ≤ s.start
      · simp [h1, h2]
      · simp [h1, h2]

theorem aupdate_congr_id {β : Type} (l : List (Nat × β)) (k : Nat) (f : β → β)
    (hf : ∀ b, f b = b) : aupdate l k f = l := by
  unfold aupdate
  rw [show l.map _ = l.map id from List.map_congr_left ?_, List.map_id]
  intro p _
  by_cases h : p.1 = k
  · subst h
    simp [hf]
  · simp [h]

theorem shift_block_offsets_after_zero (blocks : List (Nat × BlockMeta))
    (after : Nat) :
    Document.shift_block_offsets_after blocks after 0 = blocks := by
  unfold Document.shift_block_offsets_after
  rw [show blocks.map _ = blocks.map id from List.map_congr_left ?_,
    List.map_id]
  intro p _
  by_cases h : after < p.2.start_offset
  · simp [h]
  · simp [h]

theorem insertParts_nil_blocks (d : Document) (p a b : Nat) :
    (Document.insertParts d p [] a b).blocks =
      aupdate d.blocks a (fun m =>
        { m with styles := onInsert m.styles (p - m.start_offset) 0,
                 byte_len := m.byte_len + 0 }) := by
  unfold Document.insertParts
  rw [if_pos (show Document.nlPositions [] = [] from rfl)]
  rfl

theorem insertParts_nil_created (d : Document) (p a b : Nat) :
    (Document.insertParts d p [] a b).created = [] := by
  unfold Document.insertParts
  rw [if_pos (show Document.nlPositions [] = [] from rfl)]

theorem apply_insert_nil_blocks (d : Document) (p : Nat) :
    (d.apply_insert p []).1.blocks = d.blocks := by
  simp only [Document.apply_insert]
  rw [insertParts_nil_blocks]
  rw [aupdate_congr_id]
  · simp only [List.length_nil, Nat.cast_zero]
    exact shift_block_offsets_after_zero d.blocks p
  · intro m
    simp [onInsert_len_zero]

/-- C10.  Inserting empty text at an in-range position leaves the rope
content and the whole block map (hence the set of paragraph ids and every
paragraph's start offset, byte length and style spans) unchanged, yet bumps
the document version by one and reports exactly the paragraph holding the
position as affected, with nothing created or deleted. -/
theorem C10_empty_insert (d : Document) (p : Nat)
    (_hp : p ≤ d.content.length) :
    (d.apply_edit (.Insert p [])).1.content = d.content ∧
    (d.apply_edit (.Insert p [])).1.blocks = d.blocks ∧
    (d.apply_edit (.Insert p [])).1.version = d.version + 1 ∧
    (d.apply_edit (.Insert p [])).2.affected =
      [(d.pindex.para_at_offset p).1] ∧
    (d.apply_edit (.Insert p [])).2.created = [] ∧
    (d.apply_edit (.Insert p [])).2.deleted = [] ∧
    (d.apply_edit (.Insert p [])).2.version = d.version + 1 := by
  refine ⟨rfl, ?_, rfl, rfl, ?_, rfl, rfl⟩
  · show (Document.apply_insert _ p []).1.blocks = d.blocks
    rw [apply_insert_nil_blocks]
  · show (Document.apply_insert _ p []).2.created = []
    simp only [Document.apply_insert]
    rw [insertParts_nil_created]

/-- C10, witness: inserting empty text at offset 0 of the empty document. -/
theorem C10_empty_insert_witness :
    0 ≤ Document.new.content.length ∧
    ((Document.new.apply_edit (.Insert 0 [])).1.content =
        Document.new.content ∧
      (Document.new.apply_edit (.Insert 0 [])).1.blocks = Document.new.blocks ∧
      (Document.new.apply_edit (.Insert 0 [])).1.version =
        Document.new.version + 1 ∧
      (Document.new.apply_edit (.Insert 0 [])).2.affected =
        [(Document.new.pindex.para_at_offset 0).1] ∧
      (Document.new.apply_edit (.Insert 0 [])).2.created = [] ∧
      (Document.new.apply_edit (.Insert 0 [])).2.deleted = [] ∧
      (Document.new.apply_edit (.Insert 0 [])).2.version =
        Document.new.version + 1) :=
  ⟨Nat.zero_le _, C10_empty_insert Document.new 0 (Nat.zero_le _)⟩

/-- C5, amended.  The ordering on DocPosition is lexicographic by the raw
paragraph id, then by byte offset, and Selection::ordered returns the
minimum and maximum of anchor and active with respect to that id-based
order (which can differ from document order after splits, as the
counterexample shows). -/
theorem C5_ordered_lex_by_id (s : Selection) :
    posLe s.ordered.1 s.ordered.2 ∧
    (s.ordered = (s.anchor, s.active) ∨ s.ordered = (s.active, s.anchor)) := by
  unfold Selection.ordered
  by_cases h : posLe s.anchor s.active
  · rw [if_pos h]
    exact ⟨h, Or.inl rfl⟩
  · rw [if_neg h]
    refine ⟨?_, Or.inr rfl⟩
    show posLe s.active s.anchor
    unfold posLe at h ⊢
    omega

theorem runBufOps_cons (b : RenderBuffer) (op : BufOp) (rest : List BufOp) :
    runBufOps b (op :: rest) = runBufOps (runBufOp b op) rest := rfl

theorem runBufOp_u32_grow (b : RenderBuffer) (op : BufOp) :
    ∃ s, (runBufOp b op).u32_data = b.u32_data ++ s := by
  cases op with
  | beginPage i y w h => exact ⟨_, rfl⟩
  | writeLine x y t bt fl mk sel st =>
    cases mk with
    | none => exact ⟨_, rfl⟩
    | some m => exact ⟨_, rfl⟩
  | writeCursor x y h p u => exact ⟨[], by simp [runBufOp, RenderBuffer.write_cursor]⟩
  | writeSelection x y w h p =>
    exact ⟨[], by simp [runBufOp, RenderBuffer.write_selection]⟩

theorem runBufOps_u32_grow (ops : List BufOp) :
    ∀ b : RenderBuffer, ∃ s, (runBufOps b ops).u32_data = b.u32_data ++ s := by
  induction ops with
  | nil => intro b; exact ⟨[], by simp [runBufOps]⟩
  | cons op rest ih =>
    intro b
    obtain ⟨s2, hs2⟩ := ih (runBufOp b op)
    obtain ⟨s1, hs1⟩ := runBufOp_u32_grow b op
    refine ⟨s1 ++ s2, ?_⟩
    rw [runBufOps_cons, hs2, hs1, List.append_assoc]

theorem runBufOp_text_grow (b : RenderBuffer) (op : BufOp) :
    ∃ s, (runBufOp b op).text_data = b.text_data ++ s := by
  cases op with
  | beginPage i y w h => exact ⟨[], by simp [runBufOp, RenderBuffer.begin_page]⟩
  | writeLine x y t bt fl mk sel st =>
    cases mk with
    | none => exact ⟨_, rfl⟩
    | some m => exact ⟨t.bytes ++ m.bytes, by
        show b.text_data ++ t.bytes ++ m.bytes = _
        rw [List.append_assoc]⟩
  | writeCursor x y h p u => exact ⟨[], by simp [runBufOp, RenderBuffer.write_cursor]⟩
  | writeSelection x y w h p =>
    exact ⟨[], by simp [runBufOp, RenderBuffer.write_selection]⟩

theorem runBufOps_text_grow (ops : List BufOp) :
    ∀ b : RenderBuffer, ∃ s, (runBufOps b ops).text_data = b.text_data ++ s := by
  induction ops with
  | nil => intro b; exact ⟨[], by simp [runBufOps]⟩
  | cons op rest ih =>
    intro b
    obtain ⟨s2, hs2⟩ := ih (runBufOp b op)
    obtain ⟨s1, hs1⟩ := runBufOp_text_grow b op
    refine ⟨s1 ++ s2, ?_⟩
    rw [runBufOps_cons, hs2, hs1, List.append_assoc]

theorem runBufOps_f32_len (ops : List BufOp) :
    ∀ b : RenderBuffer, (runBufOps b ops).f32_data.length =
      b.f32_data.length + 3 * bufPages ops + 2 * bufLines ops := by
  induction ops with
  | nil => intro b; simp [runBufOps, bufPages, bufLines]
  | cons op rest ih =>
    intro b
    rw [runBufOps_cons, ih]
    cases op with
    | beginPage i y w h =>
      simp [runBufOp, RenderBuffer.begin_page, bufPages, bufLines,
        List.filter_cons]
      omega
    | writeLine x y t bt fl mk sel st =>
      have hf : (runBufOp b (.writeLine x y t bt fl mk sel st)).f32_data =
          b.f32_data ++ [x, y] := by
        cases mk with
        | none => rfl
        | some m => rfl
      rw [hf]
      simp [bufPages, bufLines, List.filter_cons]
      omega
    | writeCursor x y h p u =>
      simp [runBufOp, RenderBuffer.write_cursor, bufPages, bufLines,
        List.filter_cons]
    | writeSelection x y w h p =>
      simp [runBufOp, RenderBuffer.write_selection, bufPages, bufLines,
        List.filter_cons]

theorem runBufOp_pending_sels (b : RenderBuffer) (op : BufOp) :
    (runBufOp b op).pending_selections = b.pending_selections ∨
    ∃ s, (runBufOp b op).pending_selections = b.pending_selections ++ [s] := by
  cases op with
  | beginPage i y w h => exact Or.inl rfl
  | writeLine x y t bt fl mk sel st =>
    refine Or.inl ?_
    cases mk with
    | none => rfl
    | some m => rfl
  | writeCursor x y h p u => exact Or.inl rfl
  | writeSelection x y w h p => exact Or.inr ⟨_, rfl⟩

theorem runBufOp_pending_cursor (b : RenderBuffer) (op : BufOp) :
    (runBufOp b op).pending_cursor = b.pending_cursor ∨
    ∃ c, (runBufOp b op).pending_cursor = some c := by
  cases op with
  | beginPage i y w h => exact Or.inl rfl
  | writeLine x y t bt fl mk sel st =>
    refine Or.inl ?_
    cases mk with
    | none => rfl
    | some m => rfl
  | writeCursor x y h p u => exact Or.inr ⟨_, rfl⟩
  | writeSelection x y w h p => exact Or.inl rfl

theorem runBufOps_u32_min_len (ops : List BufOp) :
    ∀ b : RenderBuffer, b.u32_data.length ≤ (runBufOps b ops).u32_data.length := by
  intro b
  obtain ⟨s, hs⟩ := runBufOps_u32_grow ops b
  rw [hs]
  simp

theorem runBufOp_drop12_grow (b : RenderBuffer) (op : BufOp)
    (hb : 12 ≤ b.u32_data.length) :
    ∃ s, (runBufOp b op).u32_data.drop 12 = b.u32_data.drop 12 ++ s := by
  obtain ⟨s, hs⟩ := runBufOp_u32_grow b op
  exact ⟨s, by rw [hs, List.drop_append_of_le_length hb]⟩

theorem runBufOps_drop12_grow (ops : List BufOp) :
    ∀ b : RenderBuffer, 12 ≤ b.u32_data.length →
    ∃ s, (runBufOps b ops).u32_data.drop 12 = b.u32_data.drop 12 ++ s := by
  induction ops with
  | nil => intro b _; exact ⟨[], by simp [runBufOps]⟩
  | cons op rest ih =>
    intro b hb
    obtain ⟨s1, hs1⟩ := runBufOp_drop12_grow b op hb
    obtain ⟨s0, hs0⟩ := runBufOp_u32_grow b op
    have hb' : 12 ≤ (runBufOp b op).u32_data.length := by
      rw [hs0]
      simp only [List.length_append]
      omega
    obtain ⟨s2, hs2⟩ := ih (runBufOp b op) hb'
    refine ⟨s1 ++ s2, ?_⟩
    rw [runBufOps_cons, hs2, hs1, List.append_assoc]

theorem runBufOp_u32_min (b : RenderBuffer) (op : BufOp)
    (hb : 12 ≤ b.u32_data.length) :
    12 ≤ (runBufOp b op).u32_data.length := by
  obtain ⟨s, hs⟩ := runBufOp_u32_grow b op
  rw [hs]
  simp only [List.length_append]
  omega

/-- Bound and placement facts for every line record of a buffered call
sequence: the text and marker ranges fall inside the final text buffer, and
the record sits beyond the header inside the final u32 array. -/
theorem lineChunks_spec (ops : List BufOp) :
    ∀ b : RenderBuffer, 12 ≤ b.u32_data.length →
    ∀ c ∈ lineChunks b ops,
      c.getD 0 0 + c.getD 1 0 ≤ (runBufOps b ops).text_data.length ∧
      (0 < c.getD 7 0 →
        c.getD 6 0 + c.getD 7 0 ≤ (runBufOps b ops).text_data.length) ∧
      ∃ l₁ l₂, (runBufOps b ops).u32_data.drop 12 = l₁ ++ c ++ l₂ := by
  induction ops with
  | nil => intro b _ c hc; exact absurd hc (by simp [lineChunks])
  | cons op rest ih =>
    intro b hb c hc
    cases op with
    | beginPage i y w h =>
      simp only [lineChunks, List.nil_append] at hc
      rw [runBufOps_cons]
      exact ih _ (runBufOp_u32_min b _ hb) c hc
    | writeCursor x y h p u =>
      simp only [lineChunks, List.nil_append] at hc
      rw [runBufOps_cons]
      exact ih _ (runBufOp_u32_min b _ hb) c hc
    | writeSelection x y w h p =>
      simp only [lineChunks, List.nil_append] at hc
      rw [runBufOps_cons]
      exact ih _ (runBufOp_u32_min b _ hb) c hc
    | writeLine x y t bt fl mk sel st =>
      have hb' : 12 ≤ (runBufOp b (.writeLine x y t bt fl mk sel st)).u32_data.length :=
        runBufOp_u32_min b _ hb
      rw [runBufOps_cons]
      simp only [lineChunks, List.singleton_append, List.mem_cons] at hc
      rcases hc with hc | hc
      · subst hc
        obtain ⟨s2, hs2⟩ := runBufOps_text_grow rest
          (runBufOp b (.writeLine x y t bt fl mk sel st))
        have hmain : ∃ w7 w8 w9 w10 w11 mbytes,
            (runBufOp b (.writeLine x y t bt fl mk sel st)).u32_data =
              b.u32_data ++
                [b.text_data.length, t.bytes.length, b.utf16_text_offset, t.utf16,
                 bt, fl, (b.text_data ++ t.bytes).length, w7, w8, w9, w10, w11,
                 b.style_data.length, st.length] ∧
            (runBufOp b (.writeLine x y t bt fl mk sel st)).text_data =
              b.text_data ++ t.bytes ++ mbytes ∧
            w7 ≤ mbytes.length := by
          cases mk with
          | none =>
            exact ⟨0, 0, 0, _, _, [], rfl, by simp [runBufOp, RenderBuffer.write_line],
              Nat.le_refl 0⟩
          | some m =>
            exact ⟨m.bytes.length, b.utf16_text_offset + t.utf16, m.utf16, _, _,
              m.bytes, rfl, rfl, Nat.le_refl _⟩
        obtain ⟨w7, w8, w9, w10, w11, mbytes, hrec, htxt, hw7⟩ := hmain
        have hdropb : (runBufOp b (.writeLine x y t bt fl mk sel st)).u32_data.drop
            b.u32_data.length =
            [b.text_data.length, t.bytes.length, b.utf16_text_offset, t.utf16,
             bt, fl, (b.text_data ++ t.bytes).length, w7, w8, w9, w10, w11,
             b.style_data.length, st.length] := by
          rw [hrec]
          exact List.drop_left _ _
        obtain ⟨s3, hs3⟩ := runBufOps_drop12_grow rest
          (runBufOp b (.writeLine x y t bt fl mk sel st)) hb'
        rw [hdropb]
        refine ⟨?_, ?_, ?_⟩
        · simp only [List.getD_cons_zero, List.getD_cons_succ]
          rw [hs2, htxt]
          simp only [List.length_append]
          omega
        · intro hml
          simp only [List.getD_cons_zero, List.getD_cons_succ] at hml ⊢
          rw [hs2, htxt]
          simp only [List.length_append]
          omega
        · rw [hs3]
          have hd12 : (runBufOp b (.writeLine x y t bt fl mk sel st)).u32_data.drop 12 =
              b.u32_data.drop 12 ++
                [b.text_data.length, t.bytes.length, b.utf16_text_offset, t.utf16,
                 bt, fl, (b.text_data ++ t.bytes).length, w7, w8, w9, w10, w11,
                 b.style_data.length, st.length] := by
            rw [hrec, List.drop_append_of_le_length hb]
          rw [hd12]
          exact ⟨b.u32_data.drop 12, s3, by rw [List.append_assoc]⟩
      · exact ih _ hb' c hc

theorem header_decomp (v pc : Nat) (ops : List BufOp) :
    ∃ tail, (runBufOps (RenderBuffer.new.write_header v pc) ops).u32_data =
      hdrList v pc ++ tail := by
  obtain ⟨s, hs⟩ := runBufOps_u32_grow ops (RenderBuffer.new.write_header v pc)
  exact ⟨s, by rw [hs]; rfl⟩

set_option maxHeartbeats 3200000 in
/-- Effect of RenderBuffer::finalize on the header slots and the payload
region, for a buffer whose u32 array decomposes into the written header plus
a payload tail. -/
theorem finalize_spec (B : RenderBuffer) (v pc : Nat) (tail : List Nat)
    (hu : B.u32_data = hdrList v pc ++ tail) :
    (B.finalize).u32_data.getD 0 0 = MAGIC ∧
    (B.finalize).u32_data.getD 1 0 = SCHEMA_VERSION ∧
    ((B.finalize).u32_data.getD 5 0 =
      if B.pending_cursor.isSome then 1 else 0) ∧
    ((B.finalize).u32_data.getD 8 0 =
      if B.pending_cursor.isSome then 12 + tail.length else 0) ∧
    ((B.finalize).u32_data.getD 10 0 =
      if B.pending_cursor.isSome then B.f32_data.length else 0) ∧
    (B.finalize).u32_data.getD 6 0 = B.pending_selections.length ∧
    ((B.finalize).u32_data.getD 11 0 =
      if B.pending_selections.length = 0 then 0
      else B.f32_data.length + (if B.pending_cursor.isSome then 3 else 0)) ∧
    (B.finalize).u32_data.getD 7 0 = B.text_data.length ∧
    ∃ s, (B.finalize).u32_data.drop 12 = tail ++ s := by
  have hlen : ¬ B.u32_data.length < HEADER_SIZE := by
    rw [hu]
    simp only [hdrList, HEADER_SIZE, List.length_append, List.length_cons,
      List.length_nil]
    omega
  unfold RenderBuffer.finalize
  rw [if_neg hlen]
  cases hc : B.pending_cursor with
  | none =>
    cases hsel : B.pending_selections with
    | nil =>
      rw [hu]
      exact ⟨rfl, rfl, rfl, rfl, rfl, rfl, rfl, rfl,
        ⟨[], by rw [List.append_nil]; rfl⟩⟩
    | cons s0 srest =>
      rw [hu]
      refine ⟨rfl, rfl, rfl, rfl, rfl, rfl, ?_, rfl, ⟨_, rfl⟩⟩
      rw [if_neg (by simp)]
      rfl
  | some c =>
    cases hsel : B.pending_selections with
    | nil =>
      rw [hu]
      refine ⟨rfl, rfl, rfl, ?_, rfl, rfl, rfl, rfl,
        ⟨[c.page_index, c.utf16_offset_in_line], rfl⟩⟩
      show (hdrList v pc ++ tail).length = _
      rw [if_pos (show (some c).isSome = true from rfl)]
      simp only [hdrList, List.length_append, List.length_cons, List.length_nil]
      try omega
    | cons s0 srest =>
      rw [hu]
      refine ⟨rfl, rfl, rfl, ?_, rfl, rfl, ?_, rfl,
        ⟨[c.page_index, c.utf16_offset_in_line] ++
          (s0 :: srest).map (·.page_index), ?_⟩⟩
      · show (hdrList v pc ++ tail).length = _
        rw [if_pos (show (some c).isSome = true from rfl)]
        simp only [hdrList, List.length_append, List.length_cons, List.length_nil]
        try omega
      · show (B.f32_data ++ [c.x, c.y, c.height]).length = _
        rw [if_neg (by simp), if_pos (show (some c).isSome = true from rfl)]
        simp
      · show (tail ++ [c.page_index, c.utf16_offset_in_line]) ++
            (s0 :: srest).map (·.page_index) = _
        rw [List.append_assoc]

/-- C9: flat-buffer validity.  After write_header followed by any sequence of
begin_page / write_line / write_cursor / write_selection calls and then
finalize, the header magic and schema version match, the cursor_present flag
(slot 5) is 0 or 1, the u32 cursor offset (slot 8) is positive exactly when a
cursor is present, every encoded line record keeps its text range and (when a
marker is present) its marker range inside the final text buffer length
(slot 7) and sits intact past the header in the u32 array, and the f32 cursor
offset (slot 10) and f32 selection offset (slot 11), when present, point past
the three floats of every page and the two floats of every line. -/
theorem C9_flat_buffer_validity (v pc : Nat) (ops : List BufOp) :
    ((runBufOps (RenderBuffer.new.write_header v pc) ops).finalize).u32_data.getD 0 0
      = MAGIC ∧
    ((runBufOps (RenderBuffer.new.write_header v pc) ops).finalize).u32_data.getD 1 0
      = SCHEMA_VERSION ∧
    (((runBufOps (RenderBuffer.new.write_header v pc) ops).finalize).u32_data.getD 5 0 = 0 ∨
     ((runBufOps (RenderBuffer.new.write_header v pc) ops).finalize).u32_data.getD 5 0 = 1) ∧
    (0 < ((runBufOps (RenderBuffer.new.write_header v pc) ops).finalize).u32_data.getD 8 0 ↔
     ((runBufOps (RenderBuffer.new.write_header v pc) ops).finalize).u32_data.getD 5 0 = 1) ∧
    (∀ c ∈ lineChunks (RenderBuffer.new.write_header v pc) ops,
      c.getD 0 0 + c.getD 1 0 ≤
        ((runBufOps (RenderBuffer.new.write_header v pc) ops).finalize).u32_data.getD 7 0 ∧
      (0 < c.getD 7 0 →
        c.getD 6 0 + c.getD 7 0 ≤
          ((runBufOps (RenderBuffer.new.write_header v pc) ops).finalize).u32_data.getD 7 0) ∧
      ∃ l₁ l₂,
        ((runBufOps (RenderBuffer.new.write_header v pc) ops).finalize).u32_data.drop 12 =
          l₁ ++ c ++ l₂) ∧
    (((runBufOps (RenderBuffer.new.write_header v pc) ops).finalize).u32_data.getD 5 0 = 1 →
      ((runBufOps (RenderBuffer.new.write_header v pc) ops).finalize).u32_data.getD 10 0 =
        3 * bufPages ops + 2 * bufLines ops) ∧
    (0 < ((runBufOps (RenderBuffer.new.write_header v pc) ops).finalize).u32_data.getD 6 0 →
      ((runBufOps (RenderBuffer.new.write_header v pc) ops).finalize).u32_data.getD 11 0 =
        3 * bufPages ops + 2 * bufLines ops +
          (if ((runBufOps (RenderBuffer.new.write_header v pc) ops).finalize).u32_data.getD 5 0
              = 1 then 3 else 0)) := by
  obtain ⟨tail, htail⟩ := header_decomp v pc ops
  have hfin := finalize_spec (runBufOps (RenderBuffer.new.write_header v pc) ops)
    v pc tail htail
  obtain ⟨h0, h1, h5, h8, h10, h6, h11, h7, s, hdrop⟩ := hfin
  have hb0 : 12 ≤ (RenderBuffer.new.write_header v pc).u32_data.length :=
    Nat.le_of_eq (Eq.symm rfl)
  have hf32 := runBufOps_f32_len ops (RenderBuffer.new.write_header v pc)
  have hf0 : (RenderBuffer.new.write_header v pc).f32_data.length = 0 := rfl
  rw [hf0, Nat.zero_add] at hf32
  refine ⟨h0, h1, ?_, ?_, ?_, ?_, ?_⟩
  · rw [h5]
    cases (runBufOps (RenderBuffer.new.write_header v pc) ops).pending_cursor.isSome <;>
      simp
  · rw [h5, h8]
    cases (runBufOps (RenderBuffer.new.write_header v pc) ops).pending_cursor.isSome <;>
      simp
  · intro c hc
    obtain ⟨hb1, hb2, l₁, l₂, hplace⟩ :=
      lineChunks_spec ops (RenderBuffer.new.write_header v pc) hb0 c hc
    have htl : tail = l₁ ++ c ++ l₂ := by
      have hdl := List.drop_left (hdrList v pc) tail
      have h12 : (hdrList v pc).length = 12 := rfl
      rw [h12] at hdl
      rw [htail, hdl] at hplace
      exact hplace
    refine ⟨?_, ?_, ⟨l₁, l₂ ++ s, ?_⟩⟩
    · rw [h7]; exact hb1
    · intro hml; rw [h7]; exact hb2 hml
    · rw [hdrop, htl]
      simp only [List.append_assoc]
  · intro hp
    rw [h10, hf32]
    cases hcs : (runBufOps (RenderBuffer.new.write_header v pc) ops).pending_cursor.isSome with
    | false =>
      rw [hcs] at h5
      simp only [Bool.false_eq_true, if_false] at h5
      rw [h5] at hp
      exact absurd hp (by decide)
    | true => simp
  · intro hq
    rw [h6] at hq
    rw [h11, if_neg (by omega), hf32, h5]
    cases (runBufOps (RenderBuffer.new.write_header v pc) ops).pending_cursor.isSome <;>
      simp

end MiniWord
